import Mathlib

/-!
Verification of the sebnf2pars semantic analyzer.

This file gives a shallow embedding of the analysis passes of
`sebnf2pars/generator/source/sebnf2parsYACC.cc` and
`sebnf2pars/generator/source/ebnfClasses.cc`, and proves properties of them.

Productions are identified by their index (a `Nat`) in the global production
list; every back-pointer of the C code (`prodValue`, `optProd`, `beInstance`,
the members of `subtypeOf` and `ancestors`) is such an index (a `Nat`).  Strings are
Lean `String`s; the `char *` fields of the source are never NULL for objects
built by the EBNF parser, so they are embedded as plain `String`.
-/

namespace Sebnf2Pars

set_option maxHeartbeats 1000000
set_option maxRecDepth 4000

/-- Token-type constants, with the numeric values of the yacc token enum in
sebnf2parsYACC.cc (lines 68-93).  The shared comma expression `commaExp` is
built with `theType = 0` (line 239). -/
def KEYWORD : Nat := 260

/-- yacc token value of NONTERMINAL. -/
def NONTERMINAL : Nat := 262

/-- yacc token value of ONECHAR. -/
def ONECHAR : Nat := 263

/-- yacc token value of TERMINAL. -/
def TERMINAL : Nat := 266

/-- yacc token value of TERMINALSTRING. -/
def TERMINALSTRING : Nat := 267

/-- yacc token value of TWOCHAR. -/
def TWOCHAR : Nat := 268

/-- Embedding of `class expression` (ebnfClasses.hh): a type tag, a lexeme,
and an optional resolved production. -/
structure Expression where
  theType : Nat
  itemName : String
  prodValue : Option Nat
deriving DecidableEq

/-- Embedding of `class definition`: an ordered list of expressions. -/
structure Definition where
  expressions : List Expression
deriving DecidableEq

/-- Embedding of `class production` (ebnfClasses.hh), with every list-valued
field an ordered Lean list and every production pointer a `Nat`. -/
structure Production where
  lhs : String
  defs : List Definition
  isInstance : Bool
  isList : Nat
  isOptional : Nat
  isSupertype : Bool
  beInstance : Option Nat
  subtypeOf : List Nat
  ancestors : List Nat
  myAtts : List String
  attNames : List String
  myExps : List Expression
  optProd : Option Nat
  transferName : Option String
  wasPrinted : Bool
deriving DecidableEq

/-- The default production: every field at the neutral value set by the
`production` default constructor. -/
def defaultProduction : Production :=
  { lhs := "", defs := [], isInstance := false, isList := 0, isOptional := 0,
    isSupertype := false, beInstance := none, subtypeOf := [], ancestors := [],
    myAtts := [], attNames := [], myExps := [], optProd := none,
    transferName := none, wasPrinted := false }

instance : Inhabited Production := ⟨defaultProduction⟩

/-- The default expression (default `expression` constructor with type 0). -/
def defaultExpression : Expression :=
  { theType := 0, itemName := "", prodValue := none }

instance : Inhabited Expression := ⟨defaultExpression⟩

/-- The global production list (`prodList productions` in the source). -/
structure Model where
  prods : List Production
deriving DecidableEq

instance {eps alp : Type} [DecidableEq eps] [DecidableEq alp] : DecidableEq (Except eps alp) :=
  fun x y =>
    match x, y with
    | .ok a, .ok b =>
      if h : a = b then .isTrue (by rw [h]) else .isFalse (fun hh => h (by injection hh))
    | .error a, .error b =>
      if h : a = b then .isTrue (by rw [h]) else .isFalse (fun hh => h (by injection hh))
    | .ok _, .error _ => .isFalse (fun hh => by injection hh)
    | .error _, .ok _ => .isFalse (fun hh => by injection hh)

/-- Indexed read of a production list; out-of-range reads give the default
production (the C code never reads out of range on valid inputs). -/
def getP : List Production → Nat → Production
  | [], _ => defaultProduction
  | p :: _, 0 => p
  | _ :: t, n + 1 => getP t n

/-- Indexed write of a production list; out-of-range writes are dropped. -/
def setP : List Production → Nat → Production → List Production
  | [], _, _ => []
  | _ :: t, 0, q => q :: t
  | p :: t, n + 1, q => p :: setP t n q

/-- Read production `i` of the model. -/
def Model.get (m : Model) (i : Nat) : Production := getP m.prods i

/-- Replace production `i` of the model. -/
def Model.setProd (m : Model) (i : Nat) (p : Production) : Model :=
  ⟨setP m.prods i p⟩

/-- Update production `i` of the model in place (a field assignment through a
production pointer in the C code). -/
def Model.modifyP (m : Model) (i : Nat) (f : Production → Production) : Model :=
  m.setProd i (f (m.get i))

/-- Number of productions. -/
def Model.size (m : Model) : Nat := m.prods.length

/-! ## The binding pass (findProdValueAll / findProdValueOne / setProdValue) -/

/-- `expList::setProdValue` (ebnfClasses.cc lines 182-195): set `prodValue`
to `pid` on every expression of the list whose `itemName` equals the
production name `lhsName`. -/
def setProdValue (lhsName : String) (pid : Nat) (l : List Expression) : List Expression :=
  l.map (fun e => if e.itemName = lhsName then { e with prodValue := some pid } else e)

/-- Apply `setProdValue` to the expression list of every definition of a
production, as `findProdValueOne` does for each user production. -/
def prodSetProdValue (lhsName : String) (pid : Nat) (p : Production) : Production :=
  { p with defs := p.defs.map (fun d => ⟨setProdValue lhsName pid d.expressions⟩) }

/-- `findProdValueOne` (sebnf2parsYACC.cc lines 2694-2711): for every
production OTHER than `i` itself ("don't check to see if a production uses
itself"), set the prodValue of each of its expressions named like
production `i` to `i`. -/
def findProdValueOne (m : Model) (i : Nat) : Model :=
  (List.range m.size).foldl
    (fun acc j =>
      if j = i then acc else acc.modifyP j (prodSetProdValue (m.get i).lhs i)) m

/-- `findProdValueAll` (lines 2669-2677): run `findProdValueOne` for every
production in list order. -/
def findProdValueAll (m : Model) : Model :=
  (List.range m.size).foldl findProdValueOne m

/-- The cumulative effect of the first `t` binding steps on one expression
of production `p`: step `q` (for `q ≠ p`) sets the prodValue to `q` when the
lexeme equals production `q`'s name, exactly as `setProdValue` does. -/
def bindExpUpTo (m : Model) (p : Nat) (t : Nat) (e : Expression) : Expression :=
  (List.range t).foldl
    (fun ep q =>
      if q = p then ep
      else if ep.itemName = (m.get q).lhs then { ep with prodValue := some q } else ep) e

/-- The full effect of the binding pass on one expression of production `p`. -/
def bindExp (m : Model) (p : Nat) (e : Expression) : Expression :=
  bindExpUpTo m p m.size e

/-! ## List classification (production::findIsList) -/

/-- `production::findIsList` (ebnfClasses.cc lines 228-253).  Returns 2 for a
comma-separated list, 1 for a list without commas, 0 otherwise.  The length
tests of the C code are rendered as shape matches; the `strcmp` tests compare
`itemName` lexemes only (the C code never inspects `theType` here). -/
def findIsList (lhs : String) (defs : List Definition) : Nat :=
  match defs with
  | [d1, d2] =>
    match d1.expressions with
    | [e1] =>
      match d2.expressions with
      | [f1, f2] =>
        if f1.itemName = lhs then (if e1.itemName = f2.itemName then 1 else 0) else 0
      | [f1, f2, f3] =>
        if f1.itemName = lhs then
          (if e1.itemName = f3.itemName then (if f2.itemName = "c" then 2 else 0) else 0)
        else 0
      | _ => 0
    | _ => 0
  | _ => 0

/-- The `production(lhsIn, defsIn)` constructor (ebnfClasses.cc lines
261-287): all derived fields at their neutral values, then
`isList = findIsList()`. -/
def mkProduction (lhs : String) (defs : List Definition) : Production :=
  { defaultProduction with lhs := lhs, defs := defs, isList := findIsList lhs defs }

/-! ## Supertype classification (findSupertypes) -/

/-- The per-definition check of the first loop of `findSupertypes`
(sebnf2parsYACC.cc lines 2760-2769): the definition has exactly one
expression, of type NONTERMINAL, with a non-null prodValue whose production
is not a list. -/
def defIsSuperShape (m : Model) (d : Definition) : Bool :=
  match d.expressions with
  | [e] =>
    if e.theType = NONTERMINAL then
      match e.prodValue with
      | some q => (m.get q).isList = 0
      | none => false
    else false
  | _ => false

/-- The model-independent part of the supertype shape: every definition is a
single NONTERMINAL expression.  Any production that some `subtypeOf` list
points at passed the full check of `findSupertypes`, hence also this weaker
one, and this shape is incompatible with the optional-parent shape (whose
second definition is a single ONECHAR `$`). -/
def defsSuperShape (defs : List Definition) : Bool :=
  defs.all (fun d =>
    match d.expressions with
    | [e] => e.theType = NONTERMINAL
    | _ => false)

/-- One iteration of the outer loop of `findSupertypes` (lines 2756-2789),
working on production `i`: if every definition passes the shape check, mark
`i` a supertype and then either mark its definition targets `isInstance`
(when `i` is named "instance") or push `i` onto their `subtypeOf` lists. -/
def findSupertypesStep (m : Model) (i : Nat) : Model :=
  let p := m.get i
  if p.defs.all (defIsSuperShape m) then
    let m1 := m.modifyP i (fun q => { q with isSupertype := true })
    if p.lhs = "instance" then
      p.defs.foldl
        (fun acc d =>
          match d.expressions with
          | [e] =>
            match e.prodValue with
            | some s => acc.modifyP s (fun q => { q with isInstance := true })
            | none => acc
          | _ => acc) m1
    else
      p.defs.foldl
        (fun acc d =>
          match d.expressions with
          | [e] =>
            match e.prodValue with
            | some s => acc.modifyP s (fun q => { q with subtypeOf := q.subtypeOf ++ [i] })
            | none => acc
          | _ => acc) m1
  else m

/-- `findSupertypes` (lines 2748-2790): the outer loop over all productions. -/
def findSupertypes (m : Model) : Model :=
  (List.range m.size).foldl findSupertypesStep m

/-! ## Ancestor closure (findAncestors / findAllAncestors) -/

/-- `findAncestors` (lines 1976-1995): walk the `subtypeOf` list of `i`; for
each member that is not already collected and is not an optional parent
(`isOptional` 1 or 2), push it and recurse.  The recursion of the C code
terminates because the collected list only grows; the embedding makes that
explicit with a fuel parameter. -/
def findAncestors (m : Model) : Nat → Nat → List Nat → List Nat
  | 0, _, acc => acc
  | fuel + 1, i, acc =>
    (m.get i).subtypeOf.foldl
      (fun acc2 s =>
        if s ∉ acc2 ∧ (m.get s).isOptional ≠ 1 ∧ (m.get s).isOptional ≠ 2 then
          findAncestors m fuel s (acc2 ++ [s])
        else acc2) acc

/-- Fuel that bounds the recursion of `findAncestors`: every recursive call
first appends a production drawn from some `subtypeOf` list that is not yet
collected, so the total size of all `subtypeOf` lists bounds the depth. -/
def ancFuel (m : Model) : Nat :=
  (m.prods.map (fun p => p.subtypeOf.length)).sum + 1

/-- `findAllAncestors` (lines 1950-1958): fill the `ancestors` list of every
production, starting from its current (empty) `ancestors` list. -/
def findAllAncestors (m : Model) : Model :=
  (List.range m.size).foldl
    (fun acc i =>
      acc.modifyP i (fun p => { p with ancestors := findAncestors acc (ancFuel acc) i p.ancestors })) m

/-! ## beInstance (findBeInstance) -/

/-- `findBeInstance` (lines 2120-2140): for every production `i` with
`isInstance`, set the `beInstance` of each of its ancestors whose
`beInstance` is still unset to `i`. -/
def findBeInstance (m : Model) : Model :=
  (List.range m.size).foldl
    (fun acc i =>
      if (acc.get i).isInstance then
        (acc.get i).ancestors.foldl
          (fun acc2 a =>
            if (acc2.get a).beInstance = none then
              acc2.modifyP a (fun p => { p with beInstance := some i })
            else acc2) acc
      else acc) m

/-! ## Optional classification (findOptProds / findTransferName) -/

/-- Errors of the analysis passes that call `exit(1)` or dereference a null
pointer.  `crash` stands for an undefined-behavior null dereference. -/
inductive AnalyzeErr where
  | noTransferName (parentName : String)
  | crash
deriving DecidableEq

/-- `findTransferName` (lines 2853-2875): find the first production that has
`childIdx` among its ancestors and is an instance; record its name as the
transferName of `parentIdx`.  If none exists, exit with the
"did not find transferName" diagnostic. -/
def findTransferName (m : Model) (parentIdx childIdx : Nat) : Except AnalyzeErr Model :=
  match (List.range m.size).find?
      (fun j => decide (childIdx ∈ (m.get j).ancestors) && (m.get j).isInstance) with
  | some j => .ok (m.modifyP parentIdx (fun p => { p with transferName := some (m.get j).lhs }))
  | none => .error (.noTransferName (m.get parentIdx).lhs)

/-- One iteration of `findOptProds` (lines 2587-2621) on production `i`: if
`i` has exactly two definitions, each one expression long, the first with a
non-null prodValue and the second a ONECHAR with lexeme `$`, then install the
optional parent/child links and roles.  Note the fixed order: the resolved
expression must be in the FIRST definition and the `$` in the SECOND. -/
def findOptProdsStep (m : Model) (i : Nat) : Except AnalyzeErr Model :=
  match (m.get i).defs with
  | [d1, d2] =>
    match d1.expressions, d2.expressions with
    | [e1], [e2] =>
      match e1.prodValue with
      | some c =>
        if e2.theType = ONECHAR ∧ e2.itemName = "$" then
          let m1 := m.modifyP c (fun p => { p with isOptional := 3, optProd := some i })
          let m2 := m1.modifyP i (fun p => { p with optProd := some c })
          if (m2.get c).isInstance then
            .ok (m2.modifyP i
              (fun p => { p with isOptional := 1, transferName := some (m2.get c).lhs }))
          else if (m2.get c).beInstance ≠ none then
            findTransferName (m2.modifyP i (fun p => { p with isOptional := 1 })) i c
          else
            .ok (m2.modifyP i
              (fun p => { p with isOptional := 2, transferName := some (m2.get c).lhs }))
        else .ok m
      | none => .ok m
    | _, _ => .ok m
  | _ => .ok m

/-- `findOptProds` (lines 2579-2622): the loop over all productions. -/
def findOptProds (m : Model) : Except AnalyzeErr Model :=
  (List.range m.size).foldlM (fun acc i => findOptProdsStep acc i) m

/-- The optional-parent shape test of `findOptProdsStep`, as a partial
child-extraction: `some c` when production `i` has the shape the code
recognizes (two definitions, each one expression, first resolved to `c`,
second a ONECHAR `$`), `none` otherwise. -/
def optChild (m : Model) (i : Nat) : Option Nat :=
  match (m.get i).defs with
  | [d1, d2] =>
    match d1.expressions, d2.expressions with
    | [e1], [e2] =>
      match e1.prodValue with
      | some c =>
        if e2.theType = ONECHAR ∧ e2.itemName = "$" then some c else none
      | none => none
    | _, _ => none
  | _ => none

/-- The write sequence of `findOptProdsStep` once the shape test has
succeeded with child `c` (lines 2600-2618), named so that theorems can state
what one classification step does. -/
def optInstall (m : Model) (i c : Nat) : Except AnalyzeErr Model :=
  let m1 := m.modifyP c (fun p => { p with isOptional := 3, optProd := some i })
  let m2 := m1.modifyP i (fun p => { p with optProd := some c })
  if (m2.get c).isInstance then
    .ok (m2.modifyP i (fun p => { p with isOptional := 1, transferName := some (m2.get c).lhs }))
  else if (m2.get c).beInstance ≠ none then
    findTransferName (m2.modifyP i (fun p => { p with isOptional := 1 })) i c
  else
    .ok (m2.modifyP i (fun p => { p with isOptional := 2, transferName := some (m2.get c).lhs }))

/-- Well-formedness of the optional-parent shapes of a model: every resolved
optional child is a valid production index and is not itself
optional-parent-shaped (no chained optionals). -/
def optChildOK (m : Model) : Bool :=
  (List.range m.size).all (fun i =>
    match optChild m i with
    | some c => decide (c < m.size) && decide (optChild m c = none)
    | none => true)

/-! ## Attribute-name propagation (findAttNamesAll / findAttNamesOne) -/

/-- Errors of the attribute propagation: `fuel` models the non-termination of
the C recursion on cyclic supertype graphs, `crash` a null dereference. -/
inductive AttErr where
  | fuel
  | crash
deriving DecidableEq

/-- The conditional write of `findAttNamesOne` (lines 2085-2090): if `sub`'s
attNames is empty, set it to `front ++ sub.myAtts`, else leave it alone. -/
def attOneAssign (front : List String) (acc : Model) (sub : Nat) : Model :=
  if (acc.get sub).attNames = [] then
    acc.modifyP sub (fun p => { p with attNames := front ++ p.myAtts })
  else acc

/-- `findAttNamesOne` (lines 2072-2103): for each definition of supertype
`superIdx`, take the resolved production `sub` of its first expression,
apply the conditional write, then if `sub` is a supertype recurse with
`sub`'s attNames as the new front. -/
def findAttNamesOne (m : Model) (fuel : Nat) (superIdx : Nat) (front : List String) :
    Except AttErr Model :=
  match fuel with
  | 0 => .error .fuel
  | fuel + 1 =>
    (m.get superIdx).defs.foldlM
      (fun acc d =>
        match d.expressions with
        | [] => .error .crash
        | e :: _ =>
          match e.prodValue with
          | none => .error .crash
          | some sub =>
            if ((attOneAssign front acc sub).get sub).isSupertype then
              findAttNamesOne (attOneAssign front acc sub) fuel sub
                (((attOneAssign front acc sub).get sub).attNames)
            else .ok (attOneAssign front acc sub)) m

/-- Fuel for `findAttNamesOne`: the recursion descends one supertype level per
call, so on an acyclic supertype graph the production count bounds it. -/
def attFuel (m : Model) : Nat := m.size + 1

/-- The unconditional write of `findAttNamesAll` at a lattice root (line
2026): append `myAtts` to `attNames` even when `attNames` was preset. -/
def attAllAssign (acc : Model) (i : Nat) : Model :=
  acc.modifyP i (fun q => { q with attNames := q.attNames ++ q.myAtts })

/-- `findAttNamesAll` (lines 2013-2035): for every production that is not
named "instance" and has an empty `subtypeOf`, append its `myAtts` to its
`attNames` (even when `attNames` was preset by an override), then if it is a
supertype, propagate downward with `findAttNamesOne`. -/
def findAttNamesAll (m : Model) : Except AttErr Model :=
  (List.range m.size).foldlM
    (fun acc i =>
      if (acc.get i).lhs = "instance" then .ok acc
      else if (acc.get i).subtypeOf = [] then
        (if ((attAllAssign acc i).get i).isSupertype then
          findAttNamesOne (attAllAssign acc i) (attFuel (attAllAssign acc i)) i
            (((attAllAssign acc i).get i).attNames)
        else .ok (attAllAssign acc i))
      else .ok acc) m

/-! ## Own-expression alignment (findMyExps) -/

/-- Outcomes of `findMyExps` that terminate the program: the three
diagnostics (each naming the production being processed) and `crash` for the
null dereference `expCell->next` when `expCell` is already NULL. -/
inductive ExpErr where
  | notEnoughExps (name : String)
  | notEnoughAtts (name : String)
  | namesDiffer (a b name : String)
  | crash
deriving DecidableEq

/-- The expression filter of `findMyExps`: only TERMINAL and NONTERMINAL
expressions correspond to attributes. -/
def isAttExp (e : Expression) : Bool :=
  e.theType = TERMINAL ∨ e.theType = NONTERMINAL

/-- Advance the expression cursor to the next attribute-bearing expression
(the inner `for` loops of `findMyExps`). -/
def dropToAtt (l : List Expression) : List Expression :=
  l.dropWhile (fun e => ! isAttExp e)

/-- The first loop over `attNames` of `findMyExps` (lines 2358-2368): scan
`atts` for `myName`; on each miss advance the cursor one attribute-bearing
expression.  When the cursor is already NULL, the advance dereferences a null
pointer: `crash`. -/
def searchAtts (atts : List String) (cursor : List Expression) (myName : String) :
    Except ExpErr (List String × List Expression) :=
  match atts with
  | [] => .ok ([], cursor)
  | a :: rest =>
    if a = myName then .ok (a :: rest, cursor)
    else
      match cursor with
      | [] => .error .crash
      | _ :: t => searchAtts rest (dropToAtt t) myName

/-- The second loop of `findMyExps` (lines 2369-2398): walk `myAtts` and
`atts` in lockstep, appending the cursor's expression at each step and
advancing the cursor, with the three diagnostics of the C code. -/
def matchAtts (name : String) (myAtts atts : List String) (cursor : List Expression)
    (acc : List Expression) : Except ExpErr (List Expression) :=
  match myAtts, cursor, atts with
  | [], _, _ => .ok acc
  | _ :: _, [], _ => .error (.notEnoughExps name)
  | _ :: _, _ :: _, [] => .error (.notEnoughAtts name)
  | myName :: myRest, e :: t, a :: aRest =>
    if a = myName then matchAtts name myRest aRest (dropToAtt t) (acc ++ [e])
    else .error (.namesDiffer a myName name)

/-- The source-production selection of `findMyExps` (lines 2341-2342):
the production itself if it is an instance, else its beInstance when set,
else itself. -/
def sourceIdx (m : Model) (i : Nat) : Nat :=
  if (m.get i).isInstance then i else ((m.get i).beInstance).getD i

/-- The body of `findMyExps` for one production with non-empty `myAtts`:
position the cursor on the first attribute-bearing expression of the source
production's first definition, search `attNames` for the first own attribute,
then match the rest. -/
def findMyExpsOne (m : Model) (i : Nat) : Except ExpErr (List Expression) :=
  let prod := m.get i
  match prod.myAtts with
  | [] => .ok []
  | myName :: _ =>
    let src := sourceIdx m i
    match (m.get src).defs with
    | [] => .error .crash
    | d :: _ =>
      match dropToAtt d.expressions with
      | [] => .error (.notEnoughExps prod.lhs)
      | e :: t =>
        match searchAtts (m.get src).attNames (e :: t) myName with
        | .error err => .error err
        | .ok (atts1, cursor1) => matchAtts prod.lhs prod.myAtts atts1 cursor1 []

/-- `findMyExps` (lines 2326-2400): for every production with a non-empty
`myAtts`, compute the matching expressions and append them to its `myExps`. -/
def findMyExps (m : Model) : Except ExpErr Model :=
  (List.range m.size).foldlM
    (fun acc i =>
      if (acc.get i).myAtts = [] then .ok acc
      else
        match findMyExpsOne acc i with
        | .error e => .error e
        | .ok exps => .ok (acc.modifyP i (fun p => { p with myExps := p.myExps ++ exps }))) m

/-! ## Class emission order (the loop of printCppClasses) -/

/-- Errors of the emission loop: the "loop found in productions" diagnostic,
and `crash` for dereferencing a NULL `instanceProd`. -/
inductive EmitErr where
  | loopFound
  | crash
deriving DecidableEq

/-- `findProd` (lines 2642-2655), returning an index: the first production
whose name equals `name`. -/
def findNatx (m : Model) (name : String) : Option Nat :=
  (List.range m.size).find? (fun j => (m.get j).lhs == name)

/-- Emit production `idx` if all its direct supertypes are printed: the
supertype scan and the print of the inner loop body of `printCppClasses`
(lines 3762-3775). -/
def emitIfReady (m : Model) (order : List Nat) (cnt : Nat) (idx : Nat) :
    Model × List Nat × Nat :=
  if (m.get idx).subtypeOf.all (fun s => (m.get s).wasPrinted) then
    (m.modifyP idx (fun p => { p with wasPrinted := true }), order ++ [idx], cnt + 1)
  else (m, order, cnt)

/-- One step of the inner scan of `printCppClasses` (lines 3754-3776) for the
candidate `idx`: skip if already printed; if it is an instance, require the
`instance` production printed first (dereferencing `instanceProd`, which
crashes when no production is named "instance"); then emit if all direct
supertypes are printed. -/
def emitPassStep (instIdx : Option Nat) (st : Model × List Nat × Nat) (idx : Nat) :
    Except EmitErr (Model × List Nat × Nat) :=
  let m := st.1
  let order := st.2.1
  let cnt := st.2.2
  if (m.get idx).wasPrinted then .ok st
  else if (m.get idx).isInstance then
    match instIdx with
    | none => .error .crash
    | some k =>
      if (m.get k).wasPrinted then .ok (emitIfReady m order cnt idx)
      else .ok st
  else .ok (emitIfReady m order cnt idx)

/-- One full scan over the emittable set (one iteration of the outer `for`
of lines 3751-3780), with the pass counter starting at zero. -/
def emitPass (instIdx : Option Nat) (toPrint : List Nat) (m : Model)
    (order : List Nat) : Except EmitErr (Model × List Nat × Nat) :=
  toPrint.foldlM (emitPassStep instIdx) (m, order, 0)

/-- The outer loop of `printCppClasses` (lines 3751-3780): at most
`toPrint.length` scans, stopping early on a scan that emits nothing, and
accumulating the total number emitted. -/
def emitLoop (instIdx : Option Nat) (toPrint : List Nat) :
    Nat → Model → List Nat → Nat → Except EmitErr (Model × List Nat × Nat)
  | 0, m, order, total => .ok (m, order, total)
  | n + 1, m, order, total =>
    match emitPass instIdx toPrint m order with
    | .error e => .error e
    | .ok (m1, order1, printed) =>
      if printed = 0 then .ok (m1, order1, total)
      else emitLoop instIdx toPrint n m1 order1 (total + printed)

/-- The emission core of `printCppClasses` (lines 3737, 3749-3785): look up
the `instance` production, run the loop, and fail with "loop found in
productions" when the total emitted falls short of the emittable count. -/
def printCppClassesCore (m : Model) (toPrint : List Nat) :
    Except EmitErr (Model × List Nat) :=
  let instIdx := findNatx m "instance"
  match emitLoop instIdx toPrint toPrint.length m [] 0 with
  | .error e => .error e
  | .ok (m1, order, total) =>
    if total = toPrint.length then .ok (m1, order) else .error .loopFound

/-! ## The pass sequence of main -/

/-- The analysis passes named by the specification. -/
inductive Pass where
  | parse
  | classifyLists
  | bind
  | refineSpelling
  | readOwnAtts
  | classifySupertypes
  | ancestors
  | beInstance
  | classifyOptionals
  | fullAtts
  | ownExps
  | emit
deriving DecidableEq

/-- The pass sequence composed in `main` (sebnf2parsYACC.cc lines 3024-3039):
`yyparse` (which classifies lists inside the `production` constructor),
`reviseSpelling`, `findMyAtts`, `findProdValueAll`, `findSupertypes`,
`findAllAncestors`, `findBeInstance`, `findOptProds`, `findAttNamesAll`,
`findMyExps`, then the emitters. -/
def mainPassSequence : List Pass :=
  [.parse, .classifyLists, .refineSpelling, .readOwnAtts, .bind,
   .classifySupertypes, .ancestors, .beInstance, .classifyOptionals,
   .fullAtts, .ownExps, .emit]

/-- Modelled from the spec: the reference pass order of spec section 5
("parse → bind → classify-lists → refine-spelling → read-own-atts →
classify-supertypes → ancestors → be-instance → classify-optionals →
full-atts → own-exps → emit"). -/
def specPassOrder : List Pass :=
  [.parse, .bind, .classifyLists, .refineSpelling, .readOwnAtts,
   .classifySupertypes, .ancestors, .beInstance, .classifyOptionals,
   .fullAtts, .ownExps, .emit]

/-- Position of a pass in a pass list. -/
def passIdx (l : List Pass) (p : Pass) : Nat := l.findIdx (fun q => q == p)

/-! ## Spec-side shape definitions (for comparison with the code) -/

/-- Modelled from the spec (section 4.2 as quoted by the claims): the
comma-separated-list shape with the additional requirement that the first
expression of the second definition be a NonTerminal. -/
def specListShapeComma (lhs : String) (defs : List Definition) : Prop :=
  match defs with
  | [d1, d2] =>
    match d1.expressions, d2.expressions with
    | [e1], [f1, f2, f3] =>
      f1.theType = NONTERMINAL ∧ f1.itemName = lhs ∧ f2.itemName = "c" ∧
      e1.itemName = f3.itemName
    | _, _ => False
  | _ => False

/-- Modelled from the spec (section 4.5 as quoted by claim C6): the
optional-parent shape in EITHER order of the two definitions: one definition
is a single NonTerminal with a resolved production, the other a single
OneChar with lexeme `$`. -/
def specOptParentShape (m : Model) (i : Nat) : Prop :=
  match (m.get i).defs with
  | [d1, d2] =>
    match d1.expressions, d2.expressions with
    | [e1], [e2] =>
      (e1.theType = NONTERMINAL ∧ e1.prodValue ≠ none ∧
       e2.theType = ONECHAR ∧ e2.itemName = "$") ∨
      (e2.theType = NONTERMINAL ∧ e2.prodValue ≠ none ∧
       e1.theType = ONECHAR ∧ e1.itemName = "$")
    | _, _ => False
  | _ => False

/-- The optional-duality invariant of the spec (section 8), quantified over
the productions of a model: a production has the Child role exactly when some
production with a parent role has it as opt-peer. -/
def dualityHolds (m : Model) : Prop :=
  ∀ i, i < m.size →
    ((m.get i).isOptional = 3 ↔
      ∃ j, ∃ _ : j < m.size, ((m.get j).isOptional = 1 ∨ (m.get j).isOptional = 2) ∧
        (m.get j).optProd = some i)

/-- The comma-separated-list shape actually tested by `findIsList`: lexeme
comparisons only, no expression-kind test. -/
def codeListShapeComma (lhs : String) (defs : List Definition) : Prop :=
  match defs with
  | [d1, d2] =>
    match d1.expressions, d2.expressions with
    | [e1], [f1, f2, f3] =>
      f1.itemName = lhs ∧ f2.itemName = "c" ∧ e1.itemName = f3.itemName
    | _, _ => False
  | _ => False

/-- The plain-list shape actually tested by `findIsList`. -/
def codeListShapePlain (lhs : String) (defs : List Definition) : Prop :=
  match defs with
  | [d1, d2] =>
    match d1.expressions, d2.expressions with
    | [e1], [f1, f2] => f1.itemName = lhs ∧ e1.itemName = f2.itemName
    | _, _ => False
  | _ => False

/-! ## Field masks (for frame lemmas about what each pass leaves unchanged) -/

/-- Mask of the fields written by `findSupertypes`. -/
def maskSup (p : Production) : Production :=
  { p with isSupertype := false, isInstance := false, subtypeOf := [] }

/-- Mask of the field written by `findAllAncestors`. -/
def maskAnc (p : Production) : Production := { p with ancestors := [] }

/-- Mask of the field written by `findBeInstance`. -/
def maskBeI (p : Production) : Production := { p with beInstance := none }

/-- Mask of the fields written by `findOptProds`. -/
def maskOpt (p : Production) : Production :=
  { p with isOptional := 0, optProd := none, transferName := none }

/-- Mask of the field written by `findAttNamesAll`. -/
def maskAtt (p : Production) : Production := { p with attNames := [] }

/-- Mask of the field written by `findMyExps`. -/
def maskMyE (p : Production) : Production := { p with myExps := [] }

/-- Mask of the field written by the emission loop. -/
def maskWasP (p : Production) : Production := { p with wasPrinted := false }

/-- Statement-side predicate for the emission order: at every position `k`
of the order, every direct supertype of the production emitted there appears
strictly earlier, and if that production is an instance, the `instance`
production appears strictly earlier. -/
def respectsOrder (m : Model) (order : List Nat) : Prop :=
  ∀ k, k < order.length →
    (∀ s2, s2 ∈ (m.get (order.getD k 0)).subtypeOf → s2 ∈ order.take k) ∧
    ((m.get (order.getD k 0)).isInstance = true →
      ∀ j, findNatx m "instance" = some j → j ∈ order.take k)

/-- Statement-side invariant of the emission loop: the loop writes only
`wasPrinted`; a production is printed iff it is in the emitted order; the
order has no duplicates, draws from the emittable set, and respects the
supertype and instance constraints. -/
def EmitInv (m : Model) (toPrint : List Nat) (mm : Model) (order : List Nat) : Prop :=
  mm.size = m.size ∧
  (∀ q, maskWasP (mm.get q) = maskWasP (m.get q)) ∧
  (∀ q, ((mm.get q).wasPrinted = true ↔ q ∈ order)) ∧
  order.Nodup ∧
  (∀ x, x ∈ order → x ∈ toPrint) ∧
  respectsOrder m order

/-- An unresolved NONTERMINAL expression as built by the EBNF parser. -/
def nt (s : String) : Expression := { theType := NONTERMINAL, itemName := s, prodValue := none }

/-- A KEYWORD expression as built by the EBNF parser. -/
def kw (s : String) : Expression := { theType := KEYWORD, itemName := s, prodValue := none }

/-- A ONECHAR expression as built by the EBNF parser. -/
def oc (s : String) : Expression := { theType := ONECHAR, itemName := s, prodValue := none }

/-- The shared comma expression `commaExp` (theType 0, itemName "c"). -/
def commaExp : Expression := { theType := 0, itemName := "c", prodValue := none }

/-- A definition from a list of expressions. -/
def dfn (l : List Expression) : Definition := ⟨l⟩

/-! ## Concrete models used by counterexamples and witnesses -/

/-- Parsed model of `xs = x | xs , x ; x = X ;` — a plain list with a
left-recursive self-reference. -/
def ceBindModel : Model :=
  ⟨[mkProduction ("xs") [dfn [nt ("x")], dfn [nt ("xs"), nt ("x")]],
    mkProduction ("x") [dfn [kw ("X")]]]⟩

/-- Parsed model of `instance = a | b ; a = b ; b = X ;` — the instance
production `a` is an ancestor of the instance production `b`. -/
def ceBeInstModel : Model :=
  ⟨[mkProduction ("instance") [dfn [nt ("a")], dfn [nt ("b")]],
    mkProduction ("a") [dfn [nt ("b")]],
    mkProduction ("b") [dfn [kw ("X")]]]⟩

/-- The model of `ceBeInstModel` after binding, supertype classification,
ancestor closure and the beInstance pass. -/
def ceBeInstRun : Model :=
  findBeInstance (findAllAncestors (findSupertypes (findProdValueAll ceBeInstModel)))

/-- Witness model for C5: `instance = a ; a = X ;` — one instance, no
instance-above-instance chain. -/
def witBeInstModel : Model :=
  findAllAncestors (findSupertypes (findProdValueAll
    ⟨[mkProduction ("instance") [dfn [nt ("a")]],
      mkProduction ("a") [dfn [kw ("X")]]]⟩))

/-- Parsed model of `optA = optB | '$' ; optB = leaf | '$' ; leaf = X ;` —
`optB` is both an optional child (of optA) and optional-parent-shaped. -/
def ceChainOptModel : Model :=
  findProdValueAll
    ⟨[mkProduction ("optA") [dfn [nt ("optB")], dfn [oc ("$")]],
      mkProduction ("optB") [dfn [nt ("leaf")], dfn [oc ("$")]],
      mkProduction ("leaf") [dfn [kw ("X")]]]⟩

/-- Parsed model of `optP = '$' | leaf ; leaf = X ;` — an optional parent in
the reversed definition order. -/
def ceRevOptModel : Model :=
  findProdValueAll
    ⟨[mkProduction ("optP") [dfn [oc ("$")], dfn [nt ("leaf")]],
      mkProduction ("leaf") [dfn [kw ("X")]]]⟩

/-- Witness model for the optional classification: `optP = leaf | '$' ;
leaf = X ;` in the order the code recognizes. -/
def witOptModel : Model :=
  findProdValueAll
    ⟨[mkProduction ("optP") [dfn [nt ("leaf")], dfn [oc ("$")]],
      mkProduction ("leaf") [dfn [kw ("X")]]]⟩

/-- Result model of `findOptProds` on the witness optional model. -/
def witOptRes : Model :=
  match findOptProds witOptModel with
  | .ok m => m
  | .error _ => ⟨[]⟩

/-- Model for the C2 counterexample: production `p` has own attribute `z`,
full attribute names `a, b` (set by override), and a single attribute-bearing
expression in its first definition; the alignment walk advances the
expression cursor past the end twice and dereferences NULL. -/
def ceMyExpsModel : Model :=
  ⟨[{ mkProduction ("p") [dfn [nt ("x")]] with myAtts := ["z"], attNames := ["a", "b"] }]⟩

/-- Witness model for C2: production `p` owns attribute `b`; its source is
itself with attNames `a, b` and expressions `KEY a-exp b-exp`. -/
def witMyExpsModel : Model :=
  ⟨[{ mkProduction ("p") [dfn [kw ("P"), nt ("u"), nt ("v")]] with
      myAtts := ["b"], attNames := ["a", "b"] }]⟩

/-- Result model of `findMyExps` on the C2 witness model. -/
def witMyExpsRes : Model :=
  match findMyExps witMyExpsModel with
  | .ok m => m
  | .error _ => ⟨[]⟩

/-- Witness model for C3: the root of `ceAttModel` together with a
production that has a supertype and a preset attNames override. -/
def witAttModel : Model :=
  ⟨[{ mkProduction ("p") [dfn [kw ("K")]] with myAtts := ["a"], attNames := ["x"] },
    { mkProduction ("q") [dfn [kw ("L")]] with subtypeOf := [0], attNames := ["y"] }]⟩

/-- Result model of `findAttNamesAll` on the C3 witness model. -/
def witAttRes : Model :=
  match findAttNamesAll witAttModel with
  | .ok m => m
  | .error _ => ⟨[]⟩

/-- The bound model of `s = a | b ; a = A ; b = B ;`, the pipeline input of
the C4 and C10 witnesses. -/
def witEmitBase : Model :=
  findProdValueAll
    ⟨[mkProduction ("s") [dfn [nt ("a")], dfn [nt ("b")]],
      mkProduction ("a") [dfn [kw ("A")]],
      mkProduction ("b") [dfn [kw ("B")]]]⟩

/-- Witness model for C4 and C10: `s = a | b ; a = A ; b = B ;` after the
analysis passes; `s` is a supertype of `a` and `b`. -/
def witEmitModel : Model :=
  findBeInstance (findAllAncestors (findSupertypes witEmitBase))

/-- Result model of `findOptProds` on the C10 witness pipeline. -/
def witC10Res : Model :=
  match findOptProds witEmitModel with
  | .ok m => m
  | .error _ => ⟨[]⟩

/-- The chained-optional model after the passes that precede optional
classification. -/
def ceChainRun : Model :=
  findBeInstance (findAllAncestors (findSupertypes ceChainOptModel))

/-- Result model of `findOptProds` on the chained-optional model. -/
def ceChainRes : Model :=
  match findOptProds ceChainRun with
  | .ok m => m
  | .error _ => ⟨[]⟩

/-- The definitions `x | FOO , c , x` of a production named FOO whose
left-recursive head expression is a KEYWORD, not a NonTerminal. -/
def ceListDefs : List Definition :=
  [dfn [nt ("x")], dfn [kw ("FOO"), commaExp, nt ("x")]]

/-! # Theorems -/

/-! ## Indexing lemmas -/

theorem getP_of_ge : ∀ (l : List Production) (i : Nat), l.length ≤ i → getP l i = defaultProduction
  | [], _, _ => rfl
  | _ :: _, 0, h => absurd h (by simp)
  | _ :: t, n + 1, h => getP_of_ge t n (by simpa using h)

theorem length_setP : ∀ (l : List Production) (i : Nat) (p : Production),
    (setP l i p).length = l.length
  | [], _, _ => rfl
  | _ :: _, 0, _ => rfl
  | _ :: t, n + 1, p => by simp [setP, length_setP t n p]

theorem getP_setP_eq : ∀ (l : List Production) (i : Nat) (p : Production), i < l.length →
    getP (setP l i p) i = p
  | [], _, _, h => absurd h (by simp)
  | _ :: _, 0, _, _ => rfl
  | _ :: t, n + 1, p, h => getP_setP_eq t n p (by simpa using h)

theorem getP_setP_ne : ∀ (l : List Production) (i j : Nat) (p : Production), j ≠ i →
    getP (setP l i p) j = getP l j
  | [], _, _, _, _ => rfl
  | _ :: _, 0, 0, _, h => absurd rfl h
  | _ :: _, 0, _ + 1, _, _ => rfl
  | _ :: _, _ + 1, 0, _, _ => rfl
  | _ :: t, n + 1, k + 1, p, h => getP_setP_ne t n k p (fun hk => h (by rw [hk]))

theorem setP_of_ge : ∀ (l : List Production) (i : Nat) (p : Production), l.length ≤ i →
    setP l i p = l
  | [], _, _, _ => rfl
  | _ :: _, 0, _, h => absurd h (by simp)
  | _ :: t, n + 1, p, h => by simp [setP, setP_of_ge t n p (by simpa using h)]

theorem Model.get_of_ge (m : Model) (i : Nat) (h : m.size ≤ i) :
    m.get i = defaultProduction := getP_of_ge m.prods i h

theorem Model.size_modifyP (m : Model) (i : Nat) (f : Production → Production) :
    (m.modifyP i f).size = m.size := length_setP m.prods i _

theorem Model.get_modifyP_eq (m : Model) (i : Nat) (f : Production → Production)
    (h : i < m.size) : (m.modifyP i f).get i = f (m.get i) := getP_setP_eq m.prods i _ h

theorem Model.get_modifyP_ne (m : Model) (i j : Nat) (f : Production → Production)
    (h : j ≠ i) : (m.modifyP i f).get j = m.get j := getP_setP_ne m.prods i j _ h

theorem Model.modifyP_of_ge (m : Model) (i : Nat) (f : Production → Production)
    (h : m.size ≤ i) : m.modifyP i f = m := by
  show Model.mk (setP m.prods i _) = m
  rw [setP_of_ge m.prods i _ h]

theorem Model.get_modifyP (m : Model) (i j : Nat) (f : Production → Production) :
    (m.modifyP i f).get j = if j = i ∧ i < m.size then f (m.get i) else m.get j := by
  by_cases hj : j = i
  · subst hj
    by_cases hi : j < m.size
    · simp [hi, Model.get_modifyP_eq m j f hi]
    · simp [hi, Model.modifyP_of_ge m j f (le_of_not_lt hi)]
  · simp [hj, Model.get_modifyP_ne m i j f hj]

/-! ## Frame and fold helper lemmas -/

theorem frame_modifyP {β : Type} (F : Production → β) (f : Production → Production)
    (hf : ∀ p, F (f p) = F p) (m : Model) (i j : Nat) :
    F ((m.modifyP i f).get j) = F (m.get j) := by
  rw [Model.get_modifyP]
  by_cases h : j = i ∧ i < m.size
  · rcases h with ⟨h1, h2⟩
    subst h1
    simp [h2, hf]
  · simp [h]

theorem foldl_preserve {α : Type} {f : Model → α → Model} (P : Model → Prop)
    (h : ∀ mm a, P mm → P (f mm a)) :
    ∀ (l : List α) (mm : Model), P mm → P (l.foldl f mm)
  | [], _, hm => hm
  | a :: l, mm, hm => foldl_preserve P h l (f mm a) (h mm a hm)

theorem foldlM_preserve {α ε : Type} {f : Model → α → Except ε Model} (P : Model → Prop)
    (h : ∀ mm a mm2, P mm → f mm a = .ok mm2 → P mm2) :
    ∀ (l : List α) (mm mm2 : Model), P mm → l.foldlM f mm = .ok mm2 → P mm2
  | [], mm, mm2, hm, he => by
    simp only [List.foldlM_nil] at he
    cases he
    exact hm
  | a :: l, mm, mm2, hm, he => by
    rw [List.foldlM_cons] at he
    cases hfa : f mm a with
    | error e => rw [hfa] at he; cases he
    | ok mid =>
      rw [hfa] at he
      exact foldlM_preserve P h l mid mm2 (h mm a mid hm hfa) he

theorem foldl_preserve_mem {α : Type} {f : Model → α → Model} {P : Model → Prop} :
    ∀ (l : List α), (∀ mm a, a ∈ l → P mm → P (f mm a)) →
      ∀ (mm : Model), P mm → P (l.foldl f mm)
  | [], _, _, hm => hm
  | a :: l, h, mm, hm =>
    foldl_preserve_mem l (fun mm2 b hb hmm2 => h mm2 b (List.mem_cons_of_mem a hb) hmm2)
      (f mm a) (h mm a (List.mem_cons_self a l) hm)

theorem foldl_frame {β α : Type} (F : Production → β) (f : Model → α → Model)
    (h : ∀ mm a j, F ((f mm a).get j) = F (mm.get j)) :
    ∀ (l : List α) (mm : Model) (j : Nat), F ((l.foldl f mm).get j) = F (mm.get j)
  | [], _, _ => rfl
  | a :: l, mm, j => by
    rw [List.foldl_cons, foldl_frame F f h l (f mm a) j, h mm a j]

theorem foldlM_frame {β α ε : Type} (F : Production → β) (f : Model → α → Except ε Model)
    (h : ∀ mm a mm2, f mm a = .ok mm2 → ∀ j, F (mm2.get j) = F (mm.get j)) :
    ∀ (l : List α) (mm mm2 : Model), l.foldlM f mm = .ok mm2 →
      ∀ j, F (mm2.get j) = F (mm.get j)
  | [], mm, mm2, he => by
    simp only [List.foldlM_nil] at he
    cases he
    intro j
    rfl
  | a :: l, mm, mm2, he => by
    rw [List.foldlM_cons] at he
    cases hfa : f mm a with
    | error e => rw [hfa] at he; cases he
    | ok mid =>
      rw [hfa] at he
      intro j
      rw [foldlM_frame F f h l mid mm2 he j, h mm a mid hfa j]

/-! ## C1: binding characterization -/

theorem foldl_modify_range (f : Production → Production) (i : Nat) :
    ∀ (n : Nat) (mm : Model), n ≤ mm.size →
      (((List.range n).foldl (fun acc q => if q = i then acc else acc.modifyP q f) mm).size
          = mm.size) ∧
      (∀ j, ((List.range n).foldl
          (fun acc q => if q = i then acc else acc.modifyP q f) mm).get j =
        if j = i then mm.get j
        else if j < n then f (mm.get j)
        else mm.get j) := by
  intro n
  induction n with
  | zero =>
    intro mm _
    refine ⟨rfl, fun j => ?_⟩
    by_cases hji : j = i
    · simp [hji]
    · simp [hji]
  | succ n ihn =>
    intro mm hn
    obtain ⟨ihsz, ihget⟩ := ihn mm (by omega)
    rw [List.range_succ, List.foldl_append, List.foldl_cons, List.foldl_nil]
    by_cases hni : n = i
    · rw [if_pos hni]
      refine ⟨ihsz, fun j => ?_⟩
      rw [ihget j]
      by_cases hji : j = i
      · simp [hji]
      · rw [if_neg hji, if_neg hji]
        by_cases hjn : j < n
        · rw [if_pos hjn, if_pos (by omega)]
        · have hjn1 : ¬ j < n + 1 := by omega
          rw [if_neg hjn, if_neg hjn1]
    · rw [if_neg hni]
      have hsz2 : ((List.range n).foldl
          (fun acc q => if q = i then acc else acc.modifyP q f) mm).size = mm.size := ihsz
      refine ⟨by rw [Model.size_modifyP]; exact ihsz, fun j => ?_⟩
      by_cases hjn : j = n
      · subst hjn
        rw [Model.get_modifyP_eq _ j f (by rw [hsz2]; omega), ihget j,
          if_neg hni, if_neg (by omega : ¬ j < j)]
        rw [if_neg hni, if_pos (by omega : j < j + 1)]
      · rw [Model.get_modifyP_ne _ n j f hjn, ihget j]
        by_cases hji : j = i
        · simp [hji]
        · rw [if_neg hji, if_neg hji]
          by_cases hjlt : j < n
          · rw [if_pos hjlt, if_pos (by omega)]
          · rw [if_neg hjlt, if_neg (by omega)]

theorem findProdValueOne_size (mm : Model) (i : Nat) :
    (findProdValueOne mm i).size = mm.size :=
  (foldl_modify_range (prodSetProdValue (mm.get i).lhs i) i mm.size mm le_rfl).1

theorem findProdValueOne_get (mm : Model) (i j : Nat) :
    (findProdValueOne mm i).get j =
      if j = i then mm.get j
      else if j < mm.size then prodSetProdValue (mm.get i).lhs i (mm.get j)
      else mm.get j :=
  (foldl_modify_range (prodSetProdValue (mm.get i).lhs i) i mm.size mm le_rfl).2 j

theorem bindExpUpTo_succ (m : Model) (p : Nat) (t : Nat) (e : Expression) :
    bindExpUpTo m p (t + 1) e =
      (if t = p then bindExpUpTo m p t e
       else if (bindExpUpTo m p t e).itemName = (m.get t).lhs then
         { bindExpUpTo m p t e with prodValue := some t }
       else bindExpUpTo m p t e) := by
  unfold bindExpUpTo
  rw [List.range_succ, List.foldl_append, List.foldl_cons, List.foldl_nil]

theorem defs_map_id (l : List Definition) (f : Expression → Expression)
    (hf : ∀ e, f e = e) : l.map (fun d => (⟨d.expressions.map f⟩ : Definition)) = l := by
  induction l with
  | nil => rfl
  | cons d l ihl =>
    show (⟨d.expressions.map f⟩ : Definition) :: _ = d :: l
    rw [ihl]
    have h2 : d.expressions.map f = d.expressions := by
      induction d.expressions with
      | nil => rfl
      | cons a es ihe =>
        show f a :: es.map f = a :: es
        rw [hf a, ihe]
    rw [h2]

theorem findProdValueAll_char (m : Model) :
    ∀ t, t ≤ m.size →
      (((List.range t).foldl findProdValueOne m).size = m.size) ∧
      (∀ p, ((List.range t).foldl findProdValueOne m).get p =
        { m.get p with defs := ((m.get p).defs.map
            (fun d => ⟨d.expressions.map (bindExpUpTo m p t)⟩)) }) := by
  intro t
  induction t with
  | zero =>
    intro _
    refine ⟨rfl, fun p => ?_⟩
    rw [defs_map_id (m.get p).defs (bindExpUpTo m p 0) (fun e => rfl)]
    rfl
  | succ t iht =>
    intro ht
    obtain ⟨ihsz, ihget⟩ := iht (by omega)
    rw [List.range_succ, List.foldl_append, List.foldl_cons, List.foldl_nil]
    set acc := (List.range t).foldl findProdValueOne m with hacc
    have hlhs : (acc.get t).lhs = (m.get t).lhs := by rw [ihget t]
    refine ⟨by rw [findProdValueOne_size]; exact ihsz, fun p => ?_⟩
    rw [findProdValueOne_get acc t p]
    by_cases hpt : p = t
    · rw [if_pos hpt, ihget p]
      have hfun : bindExpUpTo m p (t + 1) = bindExpUpTo m p t := by
        funext e
        rw [bindExpUpTo_succ, if_pos hpt.symm]
      rw [hfun]
    · rw [if_neg hpt]
      by_cases hps : p < acc.size
      · rw [if_pos hps, ihget p, hlhs]
        have hstep : prodSetProdValue (m.get t).lhs t
            ({ m.get p with defs := (((m.get p).defs.map
                (fun d => ⟨d.expressions.map (bindExpUpTo m p t)⟩))) } : Production) =
            { m.get p with defs := ((((m.get p).defs.map
                (fun d => (⟨d.expressions.map (bindExpUpTo m p t)⟩ : Definition))).map
                (fun d => (⟨setProdValue (m.get t).lhs t d.expressions⟩ : Definition)))) } := rfl
        rw [hstep, List.map_map]
        have hfun : ((fun (d : Definition) =>
              (⟨setProdValue (m.get t).lhs t d.expressions⟩ : Definition)) ∘
            (fun (d : Definition) => (⟨d.expressions.map (bindExpUpTo m p t)⟩ : Definition))) =
            (fun (d : Definition) =>
              (⟨d.expressions.map (bindExpUpTo m p (t + 1))⟩ : Definition)) := by
          funext d
          show (⟨setProdValue (m.get t).lhs t (d.expressions.map (bindExpUpTo m p t))⟩ :
            Definition) = _
          unfold setProdValue
          rw [List.map_map]
          have hcomp : ((fun e => if e.itemName = (m.get t).lhs then
                { e with prodValue := some t } else e) ∘ (bindExpUpTo m p t)) =
              bindExpUpTo m p (t + 1) := by
            funext e
            show (if (bindExpUpTo m p t e).itemName = (m.get t).lhs then
              { bindExpUpTo m p t e with prodValue := some t }
              else bindExpUpTo m p t e) = _
            have htp : ¬ t = p := fun h => hpt h.symm
            rw [bindExpUpTo_succ, if_neg htp]
          rw [hcomp]
        rw [hfun]
      · rw [if_neg hps]
        rw [hacc] at hps
        rw [ihsz] at hps
        have hge : m.size ≤ p := le_of_not_lt hps
        rw [ihget p, Model.get_of_ge m p hge]
        rfl

/-- C1 (amended): after the binding pass, each production `p`'s definitions
are those of the parsed model with every expression rebound by `bindExp`;
`bindExp` preserves lexeme and kind, resolves an expression to some OTHER
production whose name equals its lexeme whenever one exists, and leaves the
resolved-production unchanged (null for parsed expressions) otherwise — in
particular a self-referential NonTerminal (lexeme = its own production's
name, no other production so named) is never resolved, because
`findProdValueOne` skips the production itself. -/
theorem C1_binding_characterization (m : Model) (p : Nat) :
    ((findProdValueAll m).get p).defs =
      (m.get p).defs.map (fun d => ⟨d.expressions.map (bindExp m p)⟩) ∧
    ∀ e, (bindExp m p e).theType = e.theType ∧ (bindExp m p e).itemName = e.itemName ∧
      ((∃ q, q < m.size ∧ q ≠ p ∧ (m.get q).lhs = e.itemName) →
        ∃ q, q < m.size ∧ q ≠ p ∧ (m.get q).lhs = e.itemName ∧
          (bindExp m p e).prodValue = some q) ∧
      ((¬ ∃ q, q < m.size ∧ q ≠ p ∧ (m.get q).lhs = e.itemName) →
        (bindExp m p e).prodValue = e.prodValue) := by
  constructor
  · have h := (findProdValueAll_char m m.size le_rfl).2 p
    unfold findProdValueAll
    rw [h]
    rfl
  · intro e
    have key : ∀ t,
        (bindExpUpTo m p t e).theType = e.theType ∧
        (bindExpUpTo m p t e).itemName = e.itemName ∧
        ((∃ q, q < t ∧ q ≠ p ∧ (m.get q).lhs = e.itemName) →
          ∃ q, q < t ∧ q ≠ p ∧ (m.get q).lhs = e.itemName ∧
            (bindExpUpTo m p t e).prodValue = some q) ∧
        ((¬ ∃ q, q < t ∧ q ≠ p ∧ (m.get q).lhs = e.itemName) →
          (bindExpUpTo m p t e).prodValue = e.prodValue) := by
      intro t
      induction t with
      | zero =>
        refine ⟨rfl, rfl, fun h => ?_, fun h => rfl⟩
        rcases h with ⟨q, hq, -⟩
        omega
      | succ t iht =>
        obtain ⟨ihty, ihnm, ihyes, ihno⟩ := iht
        rw [bindExpUpTo_succ]
        by_cases htp : t = p
        · rw [if_pos htp]
          refine ⟨ihty, ihnm, fun h => ?_, fun h => ?_⟩
          · rcases h with ⟨q, hq, hqp, hql⟩
            have hqt : q < t := by
              rcases Nat.lt_succ_iff_lt_or_eq.mp hq with h2 | h2
              · exact h2
              · exact absurd (h2.trans htp) hqp
            obtain ⟨q2, hq2, hq2p, hq2l, hq2v⟩ := ihyes ⟨q, hqt, hqp, hql⟩
            exact ⟨q2, by omega, hq2p, hq2l, hq2v⟩
          · refine ihno (fun h2 => h ?_)
            rcases h2 with ⟨q, hq, hqp, hql⟩
            exact ⟨q, by omega, hqp, hql⟩
        · rw [if_neg htp]
          by_cases hmatch : (bindExpUpTo m p t e).itemName = (m.get t).lhs
          · rw [if_pos hmatch]
            rw [ihnm] at hmatch
            refine ⟨ihty, ihnm, fun h => ?_, fun h => ?_⟩
            · exact ⟨t, Nat.lt_succ_self t, htp, hmatch.symm, rfl⟩
            · exact absurd ⟨t, Nat.lt_succ_self t, htp, hmatch.symm⟩ h
          · rw [if_neg hmatch]
            rw [ihnm] at hmatch
            refine ⟨ihty, ihnm, fun h => ?_, fun h => ?_⟩
            · rcases h with ⟨q, hq, hqp, hql⟩
              have hqt : q < t := by
                rcases Nat.lt_succ_iff_lt_or_eq.mp hq with h2 | h2
                · exact h2
                · exfalso
                  rw [h2] at hql
                  exact hmatch hql.symm
              obtain ⟨q2, hq2, hq2p, hq2l, hq2v⟩ := ihyes ⟨q, hqt, hqp, hql⟩
              exact ⟨q2, by omega, hq2p, hq2l, hq2v⟩
            · refine ihno (fun h2 => h ?_)
              rcases h2 with ⟨q, hq, hqp, hql⟩
              exact ⟨q, by omega, hqp, hql⟩
    exact key m.size

/-! ## C9: pass order of main -/

/-- C9 counterexample: the pass sequence composed in `main`
(`mainPassSequence`) is NOT the reference order of spec section 5
(`specPassOrder`) — `main` calls `reviseSpelling` and `findMyAtts` before
`findProdValueAll`. -/
theorem C9_pass_order_cex : mainPassSequence ≠ specPassOrder := by decide

/-- C9 (amended): the pass sequence composed in `main` is parse (with list
classification inside the production constructor), refine-spelling,
read-own-atts, bind, classify-supertypes, ancestors, be-instance,
classify-optionals, full-atts, own-exps, emit; in particular binding runs
AFTER spelling refinement and AFTER the attribute-comment block is read. -/
theorem C9_pass_order :
    passIdx mainPassSequence .parse < passIdx mainPassSequence .classifyLists ∧
    passIdx mainPassSequence .classifyLists < passIdx mainPassSequence .refineSpelling ∧
    passIdx mainPassSequence .refineSpelling < passIdx mainPassSequence .readOwnAtts ∧
    passIdx mainPassSequence .readOwnAtts < passIdx mainPassSequence .bind ∧
    passIdx mainPassSequence .bind < passIdx mainPassSequence .classifySupertypes ∧
    passIdx mainPassSequence .classifySupertypes < passIdx mainPassSequence .ancestors ∧
    passIdx mainPassSequence .ancestors < passIdx mainPassSequence .beInstance ∧
    passIdx mainPassSequence .beInstance < passIdx mainPassSequence .classifyOptionals ∧
    passIdx mainPassSequence .classifyOptionals < passIdx mainPassSequence .fullAtts ∧
    passIdx mainPassSequence .fullAtts < passIdx mainPassSequence .ownExps ∧
    passIdx mainPassSequence .ownExps < passIdx mainPassSequence .emit := by decide

/-! ## C8: list classification -/

/-- C8 counterexample: `findIsList` classifies as CommaSeparated (2) a
production whose left-recursive head expression is a KEYWORD, because it
compares lexemes only and never tests the expression kind; the claim
requires the head to be a NonTerminal. -/
theorem C8_kind_not_checked_cex :
    findIsList ("FOO") ceListDefs = 2 ∧ ¬ specListShapeComma ("FOO") ceListDefs := by
  constructor
  · decide
  · intro h
    simp only [specListShapeComma, ceListDefs, dfn] at h
    rcases h with ⟨h, -⟩
    simp [kw, KEYWORD, NONTERMINAL] at h

/-- C8 (amended): `findIsList` assigns 2 (CommaSeparated) exactly to the
two-definition shape with a three-expression second definition whose lexemes
match (head = production name, middle = "c", last = the item of the first
definition), and 1 (Plain) exactly to the corresponding two-expression
shape; the kinds of the expressions are not inspected. -/
theorem C8_list_classification (lhs : String) (defs : List Definition) :
    (findIsList lhs defs = 2 ↔ codeListShapeComma lhs defs) ∧
    (findIsList lhs defs = 1 ↔ codeListShapePlain lhs defs) := by
  rcases defs with - | ⟨d1, - | ⟨d2, - | ⟨d3, rest⟩⟩⟩
  · simp [findIsList, codeListShapeComma, codeListShapePlain]
  · simp [findIsList, codeListShapeComma, codeListShapePlain]
  · rcases he1 : d1.expressions with - | ⟨e1, - | ⟨g, grest⟩⟩ <;>
      rcases he2 : d2.expressions with - | ⟨f1, - | ⟨f2, - | ⟨f3, - | ⟨f4, frest⟩⟩⟩⟩ <;>
      simp only [findIsList, codeListShapeComma, codeListShapePlain, he1, he2] <;>
      try simp
    · split_ifs <;> simp_all
    · split_ifs <;> simp_all
  · simp [findIsList, codeListShapeComma, codeListShapePlain]

/-! ## C1, C2, C3, C5, C6, C7: closed counterexamples -/

/-- C1 counterexample: after the binding pass on the parsed model of
`xs = x | xs , x ; x = X ;`, the left-recursive NonTerminal `xs` in the
second definition of the retained production `xs` still has a null
resolved-production, because `findProdValueOne` never resolves a production
against itself. -/
theorem C1_self_reference_unresolved_cex :
    ((findProdValueAll ceBindModel).get 0).lhs = "xs" ∧
    (((findProdValueAll ceBindModel).get 0).defs.getD 1 ⟨[]⟩).expressions.getD 0
        defaultExpression =
      { theType := NONTERMINAL, itemName := "xs", prodValue := none } := by decide

/-- C2 counterexample: on a production whose first own attribute appears
only after two misses in the source attNames while the source has a single
attribute-bearing expression, the alignment walk of `findMyExps` advances
the NULL expression cursor (`expCell->next` with `expCell == NULL`) — a
crash, not one of the three diagnostics and not success. -/
theorem C2_alignment_crash_cex :
    (ceMyExpsModel.get 0).myAtts ≠ [] ∧
    findMyExps ceMyExpsModel = .error .crash := by decide

/-- C5 counterexample: in the analyzed model of
`instance = a | b ; a = b ; b = X ;`, production `a` is an instance (a
direct subtype of `instance`) and also an ancestor of the instance `b`, so
`findBeInstance` sets its beInstance to `b` — an instance production with a
non-None be-instance. -/
theorem C5_instance_gets_beInstance_cex :
    (ceBeInstRun.get 1).isInstance = true ∧
    (ceBeInstRun.get 1).beInstance = some 2 := by decide

/-! ## C5: instance productions and beInstance -/

theorem isInstance_lt (m : Model) (j : Nat) (h : (m.get j).isInstance = true) :
    j < m.size := by
  by_contra hge
  rw [Model.get_of_ge m j (le_of_not_lt hge)] at h
  exact absurd h (by decide)

/-- C5 (amended): on a model whose instance productions have unset
beInstance and in which no instance production occurs among the ancestors of
another instance production, `findBeInstance` leaves the beInstance of every
instance production None.  (The pass itself never tests isInstance of the
ancestor it writes: with an instance among an instance's ancestors the
convention is violated, see the counterexample.) -/
theorem C5_beInstance_not_instance (m : Model)
    (hclean : ∀ i, i < m.size → (m.get i).isInstance = true → (m.get i).beInstance = none)
    (hnochain : ∀ i, i < m.size → ∀ j, j < m.size →
      ((m.get i).isInstance = true ∧ (m.get j).isInstance = true) →
      i ∉ (m.get j).ancestors) :
    ∀ i, ((findBeInstance m).get i).isInstance = true →
      ((findBeInstance m).get i).beInstance = none := by
  classical
  set P : Model → Prop := fun acc =>
    acc.size = m.size ∧
    (∀ j, maskBeI (acc.get j) = maskBeI (m.get j)) ∧
    (∀ j, (acc.get j).isInstance = true → (acc.get j).beInstance = none)
    with hP
  have hP0 : P m := by
    refine ⟨rfl, fun j => rfl, fun j hj => ?_⟩
    exact hclean j (isInstance_lt m j hj) hj
  have hstep : ∀ mm i, P mm → P
      (if (mm.get i).isInstance then
        (mm.get i).ancestors.foldl
          (fun acc2 a =>
            if (acc2.get a).beInstance = none then
              acc2.modifyP a (fun p => { p with beInstance := some i })
            else acc2) mm
      else mm) := by
    intro mm i hmm
    by_cases hinst : (mm.get i).isInstance
    · rw [if_pos hinst]
      have hiInstM : (m.get i).isInstance = true := by
        have := congrArg Production.isInstance (hmm.2.1 i)
        simpa [maskBeI] using this.symm.trans hinst
      have hilt : i < m.size := isInstance_lt m i hiInstM
      have hancEq : (mm.get i).ancestors = (m.get i).ancestors := by
        have := congrArg Production.ancestors (hmm.2.1 i)
        simpa [maskBeI] using this
      refine foldl_preserve_mem _ ?_ mm hmm
      intro mm2 a ha hmm2
      by_cases hbe : (mm2.get a).beInstance = none
      · rw [if_pos hbe]
        by_cases halt : a < m.size
        · have haInstM : (m.get a).isInstance = false := by
            by_contra h'
            have h'' : (m.get a).isInstance = true := by
              cases h3 : (m.get a).isInstance
              · exact absurd h3 h'
              · rfl
            exact hnochain a halt i hilt ⟨h'', hiInstM⟩ (by rw [hancEq] at ha; exact ha)
          refine ⟨?_, fun j => ?_, fun j hj => ?_⟩
          · rw [Model.size_modifyP]; exact hmm2.1
          · rw [frame_modifyP maskBeI (fun p => { p with beInstance := some i })
              (fun p => rfl) mm2 a j]
            exact hmm2.2.1 j
          · by_cases hja : j = a
            · subst hja
              rw [Model.get_modifyP_eq mm2 j _ (by rw [hmm2.1]; exact halt)] at hj
              have hj2 : (mm2.get j).isInstance = true := hj
              have hjm : (m.get j).isInstance = true := by
                have hmask : (mm2.get j).isInstance = (m.get j).isInstance := by
                  have := congrArg Production.isInstance (hmm2.2.1 j)
                  simpa [maskBeI] using this
                rw [← hmask]; exact hj2
              simp [haInstM] at hjm
            · rw [Model.get_modifyP_ne mm2 a j _ hja] at hj ⊢
              exact hmm2.2.2 j hj
        · rw [Model.modifyP_of_ge mm2 a _ (by rw [hmm2.1]; exact le_of_not_lt halt)]
          exact hmm2
      · rw [if_neg hbe]; exact hmm2
    · rw [if_neg hinst]; exact hmm
  have hfinal : P (findBeInstance m) := by
    unfold findBeInstance
    exact foldl_preserve P (fun mm a hmm => hstep mm a hmm) (List.range m.size) m hP0
  exact hfinal.2.2

/-- C5 witness: on the analyzed model of `instance = a ; a = X ;`, the
instance production `a` (index 1) keeps beInstance None. -/
theorem C5_beInstance_not_instance_witness :
    ((findBeInstance witBeInstModel).get 1).isInstance = true ∧
    ((findBeInstance witBeInstModel).get 1).beInstance = none :=
  ⟨by decide,
   C5_beInstance_not_instance witBeInstModel (by decide) (by decide) 1 (by decide)⟩

/-! ## C6/C7: optional classification machinery -/

theorem setP_setP : ∀ (l : List Production) (i : Nat) (p q : Production),
    setP (setP l i p) i q = setP l i q
  | [], _, _, _ => rfl
  | _ :: _, 0, _, _ => rfl
  | a :: t, n + 1, p, q => by simp [setP, setP_setP t n p q]

theorem Model.modifyP_modifyP (m : Model) (i : Nat) (f g : Production → Production) :
    (m.modifyP i f).modifyP i g = m.modifyP i (fun p => g (f p)) := by
  by_cases hi : i < m.size
  · have h1 : (m.modifyP i f).get i = f (m.get i) := Model.get_modifyP_eq m i f hi
    show (m.modifyP i f).setProd i (g ((m.modifyP i f).get i)) = _
    rw [h1]
    show Model.mk (setP (setP m.prods i (f (m.get i))) i (g (f (m.get i)))) = _
    rw [setP_setP]
    rfl
  · rw [Model.modifyP_of_ge m i f (le_of_not_lt hi),
      Model.modifyP_of_ge m i g (le_of_not_lt hi),
      Model.modifyP_of_ge m i _ (le_of_not_lt hi)]

theorem exceptFoldlM_split {α ε : Type} (f : Model → α → Except ε Model) :
    ∀ (l1 l2 : List α) (mm acc : Model),
      (l1 ++ l2).foldlM f mm = .ok acc →
      ∃ mid, l1.foldlM f mm = .ok mid ∧ l2.foldlM f mid = .ok acc
  | [], _, mm, _, h => ⟨mm, rfl, h⟩
  | a :: l1, l2, mm, acc, h => by
    rw [List.cons_append, List.foldlM_cons] at h
    cases hfa : f mm a with
    | error e => rw [hfa] at h; cases h
    | ok mid1 =>
      rw [hfa] at h
      obtain ⟨mid, h1, h2⟩ := exceptFoldlM_split f l1 l2 mid1 acc h
      exact ⟨mid, by rw [List.foldlM_cons, hfa]; exact h1, h2⟩

theorem exceptFoldlM_single {α ε : Type} (f : Model → α → Except ε Model)
    (a : α) (mm acc : Model) (h : [a].foldlM f mm = .ok acc) : f mm a = .ok acc := by
  rw [List.foldlM_cons] at h
  cases hfa : f mm a with
  | error e => rw [hfa] at h; cases h
  | ok mid =>
    rw [hfa] at h
    simp only [List.foldlM_nil] at h
    cases h
    rfl

theorem optChild_congr (m1 m2 : Model) (i : Nat)
    (h : (m1.get i).defs = (m2.get i).defs) : optChild m1 i = optChild m2 i := by
  unfold optChild
  rw [h]

theorem optChild_none_of_ge (m : Model) (i : Nat) (h : m.size ≤ i) :
    optChild m i = none := by
  unfold optChild
  rw [Model.get_of_ge m i h]
  rfl

theorem optChild_lt (m : Model) (i c : Nat) (h : optChild m i = some c) : i < m.size := by
  by_contra hge
  rw [optChild_none_of_ge m i (le_of_not_lt hge)] at h
  cases h

theorem optChildOK_spec (m : Model) (h : optChildOK m = true) :
    ∀ i c, optChild m i = some c → c < m.size ∧ optChild m c = none := by
  intro i c hc
  have hi : i < m.size := optChild_lt m i c hc
  have h2 := (List.all_eq_true.mp h) i (List.mem_range.mpr hi)
  rw [hc] at h2
  simp only [Bool.and_eq_true, decide_eq_true_eq] at h2
  exact h2

theorem findOptProdsStep_char (m : Model) (i : Nat) :
    findOptProdsStep m i =
      (match optChild m i with
       | some c => optInstall m i c
       | none => .ok m) := by
  unfold findOptProdsStep optChild
  rcases hdefs : (m.get i).defs with - | ⟨d1, - | ⟨d2, - | ⟨d3, r⟩⟩⟩ <;>
      (try simp only [hdefs]) <;> try rfl
  rcases hexp1 : d1.expressions with - | ⟨e1, - | ⟨g1, r1⟩⟩ <;>
      rcases hexp2 : d2.expressions with - | ⟨e2, - | ⟨g2, r2⟩⟩ <;>
      (try simp only [hexp1, hexp2]) <;> try rfl
  rcases hpv : e1.prodValue with - | c <;> (try simp only [hpv]) <;> try rfl
  by_cases hc : e2.theType = ONECHAR ∧ e2.itemName = "$"
  · rw [if_pos hc, if_pos hc]
    rfl
  · rw [if_neg hc, if_neg hc]

theorem findTransferName_ok (m : Model) (pi ci : Nat) (acc : Model)
    (h : findTransferName m pi ci = .ok acc) :
    ∃ nm, acc = m.modifyP pi (fun p => { p with transferName := some nm }) := by
  unfold findTransferName at h
  cases hf : (List.range m.size).find?
      (fun j => decide (ci ∈ (m.get j).ancestors) && (m.get j).isInstance) with
  | none => rw [hf] at h; cases h
  | some j0 =>
    rw [hf] at h
    injection h with h2
    exact ⟨(m.get j0).lhs, h2.symm⟩

theorem optInstall_spec (mid : Model) (t c : Nat) (acc : Model)
    (hct : c ≠ t) (hcn : c < mid.size) (htn : t < mid.size)
    (h : optInstall mid t c = .ok acc) :
    acc.size = mid.size ∧
    (∀ j, maskOpt (acc.get j) = maskOpt (mid.get j)) ∧
    (acc.get c).isOptional = 3 ∧ (acc.get c).optProd = some t ∧
    ((acc.get t).isOptional = 1 ∨ (acc.get t).isOptional = 2) ∧
    (acc.get t).optProd = some c ∧
    (∀ j, j ≠ c → j ≠ t → acc.get j = mid.get j) := by
  simp only [optInstall] at h
  set m1 := mid.modifyP c (fun p => { p with isOptional := 3, optProd := some t }) with hm1
  set m2 := m1.modifyP t (fun p => { p with optProd := some c }) with hm2
  have hs1 : m1.size = mid.size := Model.size_modifyP mid c _
  have hs2 : m2.size = m1.size := Model.size_modifyP m1 t _
  have hgc : m2.get c = { mid.get c with isOptional := 3, optProd := some t } := by
    rw [hm2, Model.get_modifyP_ne m1 t c _ hct, hm1, Model.get_modifyP_eq mid c _ hcn]
  have hgt : m2.get t = { mid.get t with optProd := some c } := by
    rw [hm2, Model.get_modifyP_eq m1 t _ (by rw [hs1]; exact htn), hm1,
      Model.get_modifyP_ne mid c t _ (Ne.symm hct)]
  have hgo : ∀ j, j ≠ c → j ≠ t → m2.get j = mid.get j := by
    intro j hjc hjt
    rw [hm2, Model.get_modifyP_ne m1 t j _ hjt, hm1, Model.get_modifyP_ne mid c j _ hjc]
  have hmk2 : ∀ j, maskOpt (m2.get j) = maskOpt (mid.get j) := by
    intro j
    rw [hm2, frame_modifyP maskOpt (fun p => { p with optProd := some c })
        (fun p => rfl) m1 t j,
      hm1, frame_modifyP maskOpt
        (fun p => { p with isOptional := 3, optProd := some t }) (fun p => rfl) mid c j]
  have common : ∀ (g : Production → Production),
      (∀ p, (g p).optProd = p.optProd) →
      (∀ p, (g p).isOptional = 1 ∨ (g p).isOptional = 2) →
      (∀ p, maskOpt (g p) = maskOpt p) →
      ∀ acc2, acc2 = m2.modifyP t g →
      acc2.size = mid.size ∧
      (∀ j, maskOpt (acc2.get j) = maskOpt (mid.get j)) ∧
      (acc2.get c).isOptional = 3 ∧ (acc2.get c).optProd = some t ∧
      ((acc2.get t).isOptional = 1 ∨ (acc2.get t).isOptional = 2) ∧
      (acc2.get t).optProd = some c ∧
      (∀ j, j ≠ c → j ≠ t → acc2.get j = mid.get j) := by
    intro g hgOpt hg12 hgMask acc2 hacc2
    subst hacc2
    have ht2 : t < m2.size := by rw [hs2, hs1]; exact htn
    have hgett : (m2.modifyP t g).get t = g (m2.get t) := Model.get_modifyP_eq m2 t g ht2
    refine ⟨?_, ?_, ?_, ?_, ?_, ?_, ?_⟩
    · rw [Model.size_modifyP, hs2, hs1]
    · intro j
      rw [frame_modifyP maskOpt g hgMask m2 t j]
      exact hmk2 j
    · rw [Model.get_modifyP_ne m2 t c g hct, hgc]
    · rw [Model.get_modifyP_ne m2 t c g hct, hgc]
    · rw [hgett]; exact hg12 (m2.get t)
    · rw [hgett, hgOpt, hgt]
    · intro j hjc hjt
      rw [Model.get_modifyP_ne m2 t j g hjt]
      exact hgo j hjc hjt
  split_ifs at h with hb1 hb2
  · injection h with h2
    exact common (fun p => { p with isOptional := 1, transferName := some (m2.get c).lhs })
      (fun p => rfl) (fun p => Or.inl rfl) (fun p => rfl) acc h2.symm
  · obtain ⟨nm, hacc⟩ := findTransferName_ok _ t c acc h
    rw [Model.modifyP_modifyP] at hacc
    exact common (fun p => { p with isOptional := 1, transferName := some nm })
      (fun p => rfl) (fun p => Or.inl rfl) (fun p => rfl) acc hacc
  · injection h with h2
    exact common (fun p => { p with isOptional := 2, transferName := some (m2.get c).lhs })
      (fun p => rfl) (fun p => Or.inr rfl) (fun p => rfl) acc h2.symm

/-- The central invariant of `findOptProds`: after processing productions
0..t-1 of a model with clean optional fields and chain-free valid optional
shapes, the children of processed parents have role 3 and point at a parent,
the processed parents have role 1 or 2 and point at their child, and every
other production is untouched. -/
theorem findOptProds_inv (m : Model)
    (hclean : ∀ j, (m.get j).isOptional = 0 ∧ (m.get j).optProd = none)
    (hcv : ∀ i c, optChild m i = some c → c < m.size ∧ optChild m c = none) :
    ∀ t, t ≤ m.size → ∀ acc,
      (List.range t).foldlM (fun a i => findOptProdsStep a i) m = .ok acc →
      acc.size = m.size ∧
      (∀ j, maskOpt (acc.get j) = maskOpt (m.get j)) ∧
      (∀ j, (∃ i2, i2 < t ∧ optChild m i2 = some j) →
        (acc.get j).isOptional = 3 ∧
        ∃ i2, i2 < t ∧ optChild m i2 = some j ∧ (acc.get j).optProd = some i2) ∧
      (∀ j c, j < t → optChild m j = some c →
        ((acc.get j).isOptional = 1 ∨ (acc.get j).isOptional = 2) ∧
        (acc.get j).optProd = some c) ∧
      (∀ j, (¬ ∃ i2, i2 < t ∧ optChild m i2 = some j) →
        (¬ (j < t ∧ (optChild m j).isSome)) →
        (acc.get j).isOptional = 0 ∧ (acc.get j).optProd = none) := by
  intro t
  induction t with
  | zero =>
    intro _ acc hacc
    simp only [List.range_zero, List.foldlM_nil] at hacc
    cases hacc
    refine ⟨rfl, fun j => rfl, fun j hj => ?_, fun j c hj hjc => ?_, fun j hj1 hj2 => hclean j⟩
    · rcases hj with ⟨i2, hi2, -⟩; omega
    · omega
  | succ t ih =>
    intro ht acc hacc
    rw [List.range_succ] at hacc
    obtain ⟨mid, hmid, hlast⟩ := exceptFoldlM_split _ (List.range t) [t] m acc hacc
    have hstep := exceptFoldlM_single _ t mid acc hlast
    obtain ⟨hsz, hmask, hC, hD, hE⟩ := ih (by omega) mid hmid
    have hdefsEq : ∀ j, (mid.get j).defs = (m.get j).defs := by
      intro j
      have h2 := congrArg Production.defs (hmask j)
      simpa [maskOpt] using h2
    have hocEq : ∀ j, optChild mid j = optChild m j := fun j =>
      optChild_congr mid m j (hdefsEq j)
    rw [findOptProdsStep_char] at hstep
    cases hoc : optChild m t with
    | none =>
      rw [hocEq t, hoc] at hstep
      cases hstep
      refine ⟨hsz, hmask, fun j hj => ?_, fun j c hjt hjc => ?_, fun j hj1 hj2 => ?_⟩
      · rcases hj with ⟨i2, hi2, hoc2⟩
        have hi2t : i2 < t := by
          rcases Nat.lt_succ_iff_lt_or_eq.mp hi2 with h | h
          · exact h
          · exfalso; rw [h, hoc] at hoc2; cases hoc2
        obtain ⟨h3, i3, hi3, hoc3, hop⟩ := hC j ⟨i2, hi2t, hoc2⟩
        exact ⟨h3, i3, Nat.lt_succ_of_lt hi3, hoc3, hop⟩
      · have hjt2 : j < t := by
          rcases Nat.lt_succ_iff_lt_or_eq.mp hjt with h | h
          · exact h
          · exfalso; rw [h, hoc] at hjc; cases hjc
        exact hD j c hjt2 hjc
      · refine hE j ?_ ?_
        · rintro ⟨i2, hi2, hx⟩; exact hj1 ⟨i2, Nat.lt_succ_of_lt hi2, hx⟩
        · rintro ⟨hjt, hjs⟩; exact hj2 ⟨Nat.lt_succ_of_lt hjt, hjs⟩
    | some c =>
      rw [hocEq t, hoc] at hstep
      have hct : c ≠ t := by
        intro h
        rcases hcv t c hoc with ⟨-, hnone⟩
        rw [h, hoc] at hnone
        cases hnone
      rcases hcv t c hoc with ⟨hcn, hcnone⟩
      have htn : t < m.size := by omega
      obtain ⟨hsz2, hmask2, hc3, hcOpt, ht12, htOpt, hunch⟩ :=
        optInstall_spec mid t c acc hct (by rw [hsz]; exact hcn) (by rw [hsz]; exact htn) hstep
      refine ⟨hsz2.trans hsz, fun j => (hmask2 j).trans (hmask j), ?_, ?_, ?_⟩
      · intro j hj
        by_cases hjc : j = c
        · subst hjc
          exact ⟨hc3, t, Nat.lt_succ_self t, hoc, hcOpt⟩
        · rcases hj with ⟨i2, hi2, hoc2⟩
          have hi2t : i2 < t := by
            rcases Nat.lt_succ_iff_lt_or_eq.mp hi2 with h | h
            · exact h
            · exfalso
              rw [h, hoc] at hoc2
              injection hoc2 with h2
              exact hjc h2.symm
          have hjt : j ≠ t := by
            intro h
            rcases hcv i2 j hoc2 with ⟨-, hnone⟩
            rw [h, hoc] at hnone
            cases hnone
          obtain ⟨h3, i3, hi3, hoc3, hop⟩ := hC j ⟨i2, hi2t, hoc2⟩
          rw [hunch j hjc hjt]
          exact ⟨h3, i3, Nat.lt_succ_of_lt hi3, hoc3, hop⟩
      · intro j cj hjt hjc
        by_cases hjt2 : j = t
        · have h1 : cj = c := by
            rw [hjt2, hoc] at hjc
            injection hjc with h2
            exact h2.symm
          rw [hjt2, h1]
          exact ⟨ht12, htOpt⟩
        · have hjlt : j < t := by omega
          have hjnc : j ≠ c := by
            intro h
            rw [h, hcnone] at hjc
            cases hjc
          rw [hunch j hjnc hjt2]
          exact hD j cj hjlt hjc
      · intro j hj1 hj2
        have hjc : j ≠ c := by
          intro h
          subst h
          exact hj1 ⟨t, Nat.lt_succ_self t, hoc⟩
        have hjt : j ≠ t := by
          intro h
          apply hj2
          constructor
          · rw [h]
            exact Nat.lt_succ_self t
          · rw [h, hoc]
            rfl
        rw [hunch j hjc hjt]
        refine hE j ?_ ?_
        · rintro ⟨i2, hi2, hx⟩
          exact hj1 ⟨i2, Nat.lt_succ_of_lt hi2, hx⟩
        · rintro ⟨h1, h2⟩
          exact hj2 ⟨Nat.lt_succ_of_lt h1, h2⟩

/-- C7 (amended): the optional duality holds for every analyzed model in
which no resolved optional child is itself optional-parent-shaped (no
chained optionals); with a chain, a later classification step overwrites the
child's role and the duality fails (see the counterexample). -/
theorem C7_optional_duality (m : Model)
    (hclean : ∀ j, j < m.size → (m.get j).isOptional = 0 ∧ (m.get j).optProd = none)
    (hchild : optChildOK m = true)
    (m2 : Model) (hok : findOptProds m = .ok m2) :
    dualityHolds m2 := by
  have hcleanAll : ∀ j, (m.get j).isOptional = 0 ∧ (m.get j).optProd = none := by
    intro j
    by_cases hj : j < m.size
    · exact hclean j hj
    · rw [Model.get_of_ge m j (le_of_not_lt hj)]
      exact ⟨rfl, rfl⟩
  have hcv := optChildOK_spec m hchild
  unfold findOptProds at hok
  obtain ⟨hsz, hmask, hC, hD, hE⟩ := findOptProds_inv m hcleanAll hcv m.size le_rfl m2 hok
  intro i hi
  rw [hsz] at hi
  constructor
  · intro h3
    by_cases hcs : ∃ i2, i2 < m.size ∧ optChild m i2 = some i
    · obtain ⟨-, i2, hi2, hoci2, -⟩ := hC i hcs
      obtain ⟨h12, hop⟩ := hD i2 i hi2 hoci2
      exact ⟨i2, by rw [hsz]; exact hi2, h12, hop⟩
    · by_cases hps : i < m.size ∧ (optChild m i).isSome
      · obtain ⟨ci, hci⟩ := Option.isSome_iff_exists.mp hps.2
        obtain ⟨h12, -⟩ := hD i ci hps.1 hci
        rcases h12 with h | h <;> omega
      · obtain ⟨h0, -⟩ := hE i hcs hps
        omega
  · rintro ⟨j, hj, h12, hop⟩
    rw [hsz] at hj
    by_cases hcs : ∃ i2, i2 < m.size ∧ optChild m i2 = some j
    · obtain ⟨h3, -⟩ := hC j hcs
      rcases h12 with h | h <;> omega
    · by_cases hps : j < m.size ∧ (optChild m j).isSome
      · obtain ⟨cj, hcj⟩ := Option.isSome_iff_exists.mp hps.2
        obtain ⟨-, hopj⟩ := hD j cj hps.1 hcj
        rw [hop] at hopj
        injection hopj with h2
        subst h2
        obtain ⟨h3, -⟩ := hC i ⟨j, hps.1, hcj⟩
        exact h3
      · obtain ⟨h0, -⟩ := hE j hcs hps
        rcases h12 with h | h <;> omega

/-- C7 witness: the duality holds on the analyzed one-pair optional model
`optP = leaf | '$' ; leaf = X ;`. -/
theorem C7_optional_duality_witness : dualityHolds witOptRes :=
  C7_optional_duality witOptModel (by decide) (by decide) witOptRes (by decide)

/-- C6 (amended): a production is classified as an optional parent
(isOptional 1 or 2, opt-peer installed on both sides, child role 3) exactly
when its FIRST definition is a single expression with a resolved production
and its SECOND definition is a single OneChar `$` (the order is fixed, and
the kind of the resolved expression is not tested) — stated for models with
clean optional fields and chain-free valid optional shapes. -/
theorem C6_optional_parent_classification (m : Model)
    (hclean : ∀ j, j < m.size → (m.get j).isOptional = 0 ∧ (m.get j).optProd = none)
    (hchild : optChildOK m = true)
    (m2 : Model) (hok : findOptProds m = .ok m2) :
    ∀ i, i < m.size →
      (((m2.get i).isOptional = 1 ∨ (m2.get i).isOptional = 2) ↔ (optChild m i).isSome) ∧
      (∀ c, optChild m i = some c →
        (m2.get i).optProd = some c ∧ (m2.get c).isOptional = 3 ∧
        ∃ j2, j2 < m.size ∧ optChild m j2 = some c ∧ (m2.get c).optProd = some j2) := by
  have hcleanAll : ∀ j, (m.get j).isOptional = 0 ∧ (m.get j).optProd = none := by
    intro j
    by_cases hj : j < m.size
    · exact hclean j hj
    · rw [Model.get_of_ge m j (le_of_not_lt hj)]
      exact ⟨rfl, rfl⟩
  have hcv := optChildOK_spec m hchild
  unfold findOptProds at hok
  obtain ⟨hsz, hmask, hC, hD, hE⟩ := findOptProds_inv m hcleanAll hcv m.size le_rfl m2 hok
  intro i hi
  constructor
  · constructor
    · intro h12
      by_cases hps : (optChild m i).isSome
      · exact hps
      · exfalso
        by_cases hcs : ∃ i2, i2 < m.size ∧ optChild m i2 = some i
        · obtain ⟨h3, -⟩ := hC i hcs
          rcases h12 with h | h <;> omega
        · obtain ⟨h0, -⟩ := hE i hcs (fun hx => hps hx.2)
          rcases h12 with h | h <;> omega
    · intro hps
      obtain ⟨ci, hci⟩ := Option.isSome_iff_exists.mp hps
      exact (hD i ci hi hci).1
  · intro c hc
    refine ⟨(hD i c hi hc).2, ?_⟩
    obtain ⟨h3, j2, hj2, hoc2, hop2⟩ := hC c ⟨i, hi, hc⟩
    exact ⟨h3, j2, hj2, hoc2, hop2⟩

/-- C6 witness: in the analyzed model of `optP = leaf | '$' ; leaf = X ;`,
optP (index 0) gets a parent role with opt-peer leaf, and leaf (index 1)
gets the Child role. -/
theorem C6_optional_parent_classification_witness :
    ((witOptRes.get 0).isOptional = 1 ∨ (witOptRes.get 0).isOptional = 2) ∧
    (witOptRes.get 0).optProd = some 1 ∧ (witOptRes.get 1).isOptional = 3 :=
  ⟨(C6_optional_parent_classification witOptModel (by decide) (by decide) witOptRes
      (by decide) 0 (by decide)).1.mpr (by decide),
   ((C6_optional_parent_classification witOptModel (by decide) (by decide) witOptRes
      (by decide) 0 (by decide)).2 1 (by decide)).1,
   ((C6_optional_parent_classification witOptModel (by decide) (by decide) witOptRes
      (by decide) 0 (by decide)).2 1 (by decide)).2.1⟩

/-- C6 counterexample: a production with the two optional definitions in the
REVERSED order (`optP = '$' | leaf`) satisfies the spec's either-order
optional-parent shape but is not classified by `findOptProds`: its
isOptional stays 0 and no opt-peer is installed, because the code requires
the resolved expression in the first definition and the `$` in the second. -/
theorem C6_reversed_order_not_classified_cex :
    specOptParentShape ceRevOptModel 0 ∧
    (findOptProds ceRevOptModel).map
        (fun m => ((m.get 0).isOptional, (m.get 0).optProd, (m.get 1).isOptional)) =
      .ok ((0, none, 0)) := by
  constructor
  · exact Or.inr ⟨rfl, by decide, rfl, rfl⟩
  · decide

/-- C7 counterexample: in the analyzed model of
`optA = optB | '$' ; optB = leaf | '$' ; leaf = X ;`, the pass leaves
optA with a parent role and opt-peer optB, while optB's role was
overwritten to a parent role — so a production (optB) is the opt-peer of a
parent without having the Child role, and the duality fails. -/
theorem C7_duality_fails_cex :
    findOptProds ceChainRun = .ok ceChainRes ∧ ¬ dualityHolds ceChainRes := by
  constructor
  · decide
  · intro hd
    have h1 := (hd 1 (by decide)).mpr ⟨0, by decide, Or.inr (by decide), by decide⟩
    exact absurd h1 (by decide)


/-! ## C3: the attribute-name propagation pass -/

theorem attOneAssign_size (front : List String) (acc : Model) (sub : Nat) :
    (attOneAssign front acc sub).size = acc.size := by
  unfold attOneAssign
  split
  · exact Model.size_modifyP acc sub _
  · rfl

theorem attOneAssign_mask (front : List String) (acc : Model) (sub q : Nat) :
    maskAtt ((attOneAssign front acc sub).get q) = maskAtt (acc.get q) := by
  unfold attOneAssign
  split
  · exact frame_modifyP maskAtt
      (fun p => { p with attNames := front ++ p.myAtts }) (fun p => rfl) acc sub q
  · rfl

theorem attOneAssign_keep (front : List String) (acc : Model) (sub i : Nat)
    (h : (acc.get i).attNames ≠ []) :
    ((attOneAssign front acc sub).get i).attNames = (acc.get i).attNames := by
  unfold attOneAssign
  split
  · next hemp =>
    have hne : i ≠ sub := fun he => h (by rw [he]; exact hemp)
    rw [Model.get_modifyP_ne acc sub i _ hne]
  · rfl

/-- `findAttNamesOne` preserves the size, every field other than attNames,
and the attNames of every production whose attNames is already nonempty
(the write at 2085-2090 only fires on an empty attNames). -/
theorem findAttNamesOne_preserve :
    ∀ (fuel : Nat) (m : Model) (s : Nat) (front : List String) (macc : Model),
      findAttNamesOne m fuel s front = .ok macc →
      macc.size = m.size ∧ (∀ q, maskAtt (macc.get q) = maskAtt (m.get q)) ∧
      (∀ i, (m.get i).attNames ≠ [] → (macc.get i).attNames = (m.get i).attNames)
  | 0, m, s, front, macc => by
    intro h
    unfold findAttNamesOne at h
    cases h
  | fuel + 1, m, s, front, macc => by
    intro h
    unfold findAttNamesOne at h
    refine foldlM_preserve
      (fun mm => mm.size = m.size ∧ (∀ q, maskAtt (mm.get q) = maskAtt (m.get q)) ∧
        (∀ i, (m.get i).attNames ≠ [] → (mm.get i).attNames = (m.get i).attNames))
      ?_ ((m.get s).defs) m macc ⟨rfl, fun q => rfl, fun i _ => rfl⟩ h
    intro acc d acc2 hP hstep
    obtain ⟨hsz, hmask, hpre⟩ := hP
    try dsimp only at hstep
    split at hstep
    · cases hstep
    · split at hstep
      · cases hstep
      · rename_i sub hsome
        have hsz1 := attOneAssign_size front acc sub
        have hmask1 := attOneAssign_mask front acc sub
        split at hstep
        · obtain ⟨h1, h2, h3⟩ := findAttNamesOne_preserve fuel
            (attOneAssign front acc sub) sub
            (((attOneAssign front acc sub).get sub).attNames) acc2 hstep
          refine ⟨by rw [h1, hsz1, hsz], fun q => by rw [h2 q, hmask1 q, hmask q],
            fun i hi => ?_⟩
          have hacc := hpre i hi
          have hne : (acc.get i).attNames ≠ [] := by rw [hacc]; exact hi
          have h4 := attOneAssign_keep front acc sub i hne
          have hne2 : ((attOneAssign front acc sub).get i).attNames ≠ [] := by
            rw [h4]; exact hne
          rw [h3 i hne2, h4, hacc]
        · cases hstep
          refine ⟨by rw [hsz1, hsz], fun q => by rw [hmask1 q, hmask q], fun i hi => ?_⟩
          have hacc := hpre i hi
          have hne : (acc.get i).attNames ≠ [] := by rw [hacc]; exact hi
          rw [attOneAssign_keep front acc sub i hne, hacc]

theorem attAllAssign_size (acc : Model) (i : Nat) :
    (attAllAssign acc i).size = acc.size := Model.size_modifyP acc i _

theorem attAllAssign_mask (acc : Model) (i q : Nat) :
    maskAtt ((attAllAssign acc i).get q) = maskAtt (acc.get q) :=
  frame_modifyP maskAtt (fun q => { q with attNames := q.attNames ++ q.myAtts })
    (fun p => rfl) acc i q

theorem attAllAssign_get_ne (acc : Model) (i j : Nat) (h : j ≠ i) :
    (attAllAssign acc i).get j = acc.get j := Model.get_modifyP_ne acc i j _ h

theorem attAllAssign_att_eq (acc : Model) (i : Nat) (h : i < acc.size) :
    ((attAllAssign acc i).get i).attNames = (acc.get i).attNames ++ (acc.get i).myAtts := by
  unfold attAllAssign
  rw [Model.get_modifyP_eq acc i _ h]

/-- Invariant of the outer loop of `findAttNamesAll` after the first `t`
productions: the pass writes only attNames; a production with a nonempty
initial attNames holds its initial value with its own myAtts appended if it
is an already-processed non-instance lattice root, and its initial value
otherwise. -/
theorem findAttNamesAll_inv (m : Model) :
    ∀ (t : Nat), t ≤ m.size → ∀ acc,
      (List.range t).foldlM
        (fun acc i =>
          if (acc.get i).lhs = "instance" then .ok acc
          else if (acc.get i).subtypeOf = [] then
            (if ((attAllAssign acc i).get i).isSupertype then
              findAttNamesOne (attAllAssign acc i) (attFuel (attAllAssign acc i)) i
                (((attAllAssign acc i).get i).attNames)
            else .ok (attAllAssign acc i))
          else .ok acc) m = .ok acc →
      acc.size = m.size ∧ (∀ q, maskAtt (acc.get q) = maskAtt (m.get q)) ∧
      (∀ i, (m.get i).attNames ≠ [] →
        ((i < t ∧ ¬ (m.get i).lhs = "instance" ∧ (m.get i).subtypeOf = []) →
          (acc.get i).attNames = (m.get i).attNames ++ (m.get i).myAtts) ∧
        (¬ (i < t ∧ ¬ (m.get i).lhs = "instance" ∧ (m.get i).subtypeOf = []) →
          (acc.get i).attNames = (m.get i).attNames)) := by
  intro t
  induction t with
  | zero =>
    intro _ acc h
    simp only [List.range_zero, List.foldlM_nil] at h
    cases h
    refine ⟨rfl, fun q => rfl, fun i hi => ⟨fun hc => absurd hc.1 (Nat.not_lt_zero i),
      fun _ => rfl⟩⟩
  | succ t iht =>
    intro ht acc h
    rw [List.range_succ] at h
    obtain ⟨mid, h1, h2⟩ := exceptFoldlM_split _ _ _ _ _ h
    have hstep := exceptFoldlM_single _ _ _ _ h2
    obtain ⟨ihsz, ihmask, ihatt⟩ := iht (Nat.le_of_succ_le ht) mid h1
    have hlhs : (mid.get t).lhs = (m.get t).lhs := by
      have hx := congrArg Production.lhs (ihmask t)
      simpa [maskAtt] using hx
    have hsub : (mid.get t).subtypeOf = (m.get t).subtypeOf := by
      have hx := congrArg Production.subtypeOf (ihmask t)
      simpa [maskAtt] using hx
    have hmy : (mid.get t).myAtts = (m.get t).myAtts := by
      have hx := congrArg Production.myAtts (ihmask t)
      simpa [maskAtt] using hx
    try dsimp only at hstep
    by_cases hinst : (mid.get t).lhs = "instance"
    · rw [if_pos hinst] at hstep
      cases hstep
      refine ⟨ihsz, ihmask, fun i hi => ⟨fun hc => ?_, fun hc => ?_⟩⟩
      · by_cases hit : i = t
        · subst hit
          exact absurd (by rw [← hlhs]; exact hinst) hc.2.1
        · exact (ihatt i hi).1 ⟨by omega, hc.2⟩
      · exact (ihatt i hi).2 (fun hc2 => hc ⟨by omega, hc2.2⟩)
    · rw [if_neg hinst] at hstep
      by_cases hroot : (mid.get t).subtypeOf = []
      · rw [if_pos hroot] at hstep
        have htm : t < m.size := ht
        have htmid : t < mid.size := by rw [ihsz]; exact htm
        have hPm : ¬ (m.get t).lhs = "instance" ∧ (m.get t).subtypeOf = [] :=
          ⟨fun he => hinst (by rw [hlhs]; exact he), by rw [← hsub]; exact hroot⟩
        have hassign : ∀ hmt : (m.get t).attNames ≠ [],
            ((attAllAssign mid t).get t).attNames =
              (m.get t).attNames ++ (m.get t).myAtts := by
          intro hmt
          rw [attAllAssign_att_eq mid t htmid,
            (ihatt t hmt).2 (fun hc => absurd hc.1 (Nat.lt_irrefl t)), hmy]
        have hmidne : ∀ i, (m.get i).attNames ≠ [] → (mid.get i).attNames ≠ [] := by
          intro i hi
          by_cases hc : i < t ∧ ¬ (m.get i).lhs = "instance" ∧ (m.get i).subtypeOf = []
          · rw [(ihatt i hi).1 hc]
            exact fun h => hi (List.append_eq_nil.mp h).1
          · rw [(ihatt i hi).2 hc]
            exact hi
        have hfinal : acc.size = mid.size ∧
            (∀ q, maskAtt (acc.get q) = maskAtt ((attAllAssign mid t).get q)) ∧
            (∀ i, ((attAllAssign mid t).get i).attNames ≠ [] →
              (acc.get i).attNames = ((attAllAssign mid t).get i).attNames) := by
          by_cases hsup : ((attAllAssign mid t).get t).isSupertype
          · rw [if_pos hsup] at hstep
            obtain ⟨ha, hb, hc⟩ := findAttNamesOne_preserve _ _ _ _ _ hstep
            exact ⟨by rw [ha, attAllAssign_size], hb, hc⟩
          · rw [if_neg hsup] at hstep
            cases hstep
            exact ⟨attAllAssign_size mid t, fun q => rfl, fun i _ => rfl⟩
        obtain ⟨hfsz, hfmask, hfatt⟩ := hfinal
        refine ⟨by rw [hfsz, ihsz], fun q => by rw [hfmask q, attAllAssign_mask, ihmask q],
          fun i hi => ?_⟩
        by_cases hit : i = t
        · subst hit
          have hv := hassign hi
          have hnv : ((attAllAssign mid i).get i).attNames ≠ [] := by
            rw [hv]
            exact fun h => hi (List.append_eq_nil.mp h).1
          refine ⟨fun _ => by rw [hfatt i hnv, hv], fun hc => ?_⟩
          exact absurd ⟨Nat.lt_succ_self i, hPm⟩ hc
        · have hm1 : (attAllAssign mid t).get i = mid.get i := attAllAssign_get_ne mid t i hit
          have hnv : ((attAllAssign mid t).get i).attNames ≠ [] := by
            rw [hm1]; exact hmidne i hi
          have hkeep : (acc.get i).attNames = (mid.get i).attNames := by
            rw [hfatt i hnv, hm1]
          refine ⟨fun hc => ?_, fun hc => ?_⟩
          · rw [hkeep]
            exact (ihatt i hi).1 ⟨by omega, hc.2⟩
          · rw [hkeep]
            exact (ihatt i hi).2 (fun hc2 => hc ⟨by omega, hc2.2⟩)
      · rw [if_neg hroot] at hstep
        cases hstep
        refine ⟨ihsz, ihmask, fun i hi => ⟨fun hc => ?_, fun hc => ?_⟩⟩
        · by_cases hit : i = t
          · subst hit
            exact absurd hc.2.2 (by rw [← hsub]; exact hroot)
          · exact (ihatt i hi).1 ⟨by omega, hc.2⟩
        · exact (ihatt i hi).2 (fun hc2 => hc ⟨by omega, hc2.2⟩)

theorem dropToAtt_idem (l : List Expression) : dropToAtt (dropToAtt l) = dropToAtt l := by
  induction l with
  | nil => rfl
  | cons a l ih =>
    unfold dropToAtt
    rw [List.dropWhile_cons]
    by_cases h : isAttExp a
    · simp [h]
    · simp only [h, Bool.not_false, if_true]
      exact ih

theorem dropToAtt_head (e : Expression) (t : List Expression)
    (h : dropToAtt (e :: t) = e :: t) : isAttExp e = true := by
  unfold dropToAtt at h
  rw [List.dropWhile_cons] at h
  by_cases ha : isAttExp e
  · exact ha
  · exfalso
    simp only [ha, Bool.not_false, if_true] at h
    have hlen := (List.dropWhile_sublist (l := t) (fun e => ! isAttExp e)).length_le
    rw [h] at hlen
    simp at hlen

theorem dropToAtt_filter (l : List Expression) :
    (dropToAtt l).filter isAttExp = l.filter isAttExp := by
  induction l with
  | nil => rfl
  | cons a l ih =>
    unfold dropToAtt
    rw [List.dropWhile_cons, List.filter_cons]
    by_cases h : isAttExp a
    · simp [h, List.filter_cons]
    · simp only [h, Bool.not_false, if_true, if_neg h]
      exact ih

/-- The search loop of `findMyExps` skips an initial segment of `attNames`,
advancing the cursor one attribute-bearing expression per skipped name: on
success the remaining names are `atts.drop k` and the remaining
attribute-bearing expressions are the filter's `drop k`. -/
theorem searchAtts_spec :
    ∀ (atts : List String) (cursor : List Expression) (myName : String)
      (atts1 : List String) (cursor1 : List Expression),
      dropToAtt cursor = cursor →
      searchAtts atts cursor myName = .ok (atts1, cursor1) →
      ∃ k, atts1 = atts.drop k ∧
        cursor1.filter isAttExp = (cursor.filter isAttExp).drop k ∧
        dropToAtt cursor1 = cursor1
  | [], cursor, myName, atts1, cursor1 => by
    intro hn h
    unfold searchAtts at h
    cases h
    exact ⟨0, rfl, rfl, hn⟩
  | a :: rest, cursor, myName, atts1, cursor1 => by
    intro hn h
    unfold searchAtts at h
    by_cases hname : a = myName
    · rw [if_pos hname] at h
      cases h
      exact ⟨0, rfl, rfl, hn⟩
    · rw [if_neg hname] at h
      split at h
      · cases h
      · rename_i e t
        obtain ⟨k, h1, h2, h3⟩ := searchAtts_spec rest (dropToAtt t) myName atts1 cursor1
          (dropToAtt_idem t) h
        refine ⟨k + 1, ?_, ?_, h3⟩
        · rw [h1, List.drop_succ_cons]
        · have hatt : isAttExp e = true := dropToAtt_head e t hn
          rw [h2, dropToAtt_filter t, List.filter_cons, if_pos hatt, List.drop_succ_cons]

/-- The lockstep loop of `findMyExps`: on success the consumed `attNames`
prefix equals `myAtts` and the appended expressions are the first
`myAtts.length` attribute-bearing expressions of the cursor. -/
theorem matchAtts_spec :
    ∀ (myAtts : List String) (name : String) (atts : List String)
      (cursor acc res : List Expression),
      dropToAtt cursor = cursor →
      matchAtts name myAtts atts cursor acc = .ok res →
      atts.take myAtts.length = myAtts ∧
      myAtts.length ≤ (cursor.filter isAttExp).length ∧
      res = acc ++ (cursor.filter isAttExp).take myAtts.length
  | [], name, atts, cursor, acc, res => by
    intro hn h
    unfold matchAtts at h
    cases h
    exact ⟨rfl, Nat.zero_le _, by simp⟩
  | myName :: myRest, name, atts, cursor, acc, res => by
    intro hn h
    unfold matchAtts at h
    split at h
    · rename_i heq
      exact absurd heq (List.cons_ne_nil _ _)
    · cases h
    · cases h
    · rename_i myName2 myRest2 e t a aRest heq
      injection heq with he1 he2
      subst he1
      subst he2
      split at h
      · rename_i hname
        obtain ⟨h1, h2, h3⟩ := matchAtts_spec myRest name aRest (dropToAtt t) (acc ++ [e]) res
          (dropToAtt_idem t) h
        have hatt : isAttExp e = true := dropToAtt_head e t hn
        have hfe : (e :: t).filter isAttExp = e :: t.filter isAttExp := by
          rw [List.filter_cons, if_pos hatt]
        have hdf := dropToAtt_filter t
        refine ⟨?_, ?_, ?_⟩
        · rw [List.length_cons, List.take_succ_cons, hname, h1]
        · rw [hfe, List.length_cons, List.length_cons]
          rw [hdf] at h2
          omega
        · rw [h3, hdf, hfe, List.length_cons, List.take_succ_cons, List.append_assoc,
            List.singleton_append]
      · cases h

/-- On success for a production with nonempty `myAtts`, `findMyExpsOne`
returns a contiguous window of the attribute-bearing expressions of the
source production's first definition, aligned with the window of the source
attNames that equals `myAtts`. -/
theorem findMyExpsOne_spec (m : Model) (i : Nat) (exps : List Expression)
    (hne : (m.get i).myAtts ≠ [])
    (h : findMyExpsOne m i = .ok exps) :
    ∃ k,
      (((m.get (sourceIdx m i)).attNames).drop k).take (m.get i).myAtts.length =
        (m.get i).myAtts ∧
      k + (m.get i).myAtts.length ≤
        (((m.get (sourceIdx m i)).defs.headD ⟨[]⟩).expressions.filter isAttExp).length ∧
      exps = ((((m.get (sourceIdx m i)).defs.headD ⟨[]⟩).expressions.filter
        isAttExp).drop k).take (m.get i).myAtts.length := by
  unfold findMyExpsOne at h
  dsimp only at h
  split at h
  · rename_i hmy
    exact absurd hmy hne
  · rename_i myName rest hmy
    split at h
    · cases h
    · rename_i d dtail hdefs
      split at h
      · cases h
      · rename_i e t hdrop
        split at h
        · cases h
        · rename_i atts1 cursor1 hsearch
          have hnorm : dropToAtt (e :: t) = e :: t := by
            rw [← hdrop, dropToAtt_idem]
          obtain ⟨k, hk1, hk2, hk3⟩ := searchAtts_spec ((m.get (sourceIdx m i)).attNames)
            (e :: t) myName atts1 cursor1 hnorm hsearch
          obtain ⟨hm1, hm2, hm3⟩ := matchAtts_spec ((m.get i).myAtts) ((m.get i).lhs)
            atts1 cursor1 [] exps hk3 h
          have hX : (e :: t).filter isAttExp =
              ((m.get (sourceIdx m i)).defs.headD ⟨[]⟩).expressions.filter isAttExp := by
            rw [hdefs, List.headD_cons, ← hdrop, dropToAtt_filter]
          have hlen : (m.get i).myAtts.length = rest.length + 1 := by
            rw [hmy, List.length_cons]
          refine ⟨k, ?_, ?_, ?_⟩
          · rw [← hk1, hm1]
          · rw [← hX]
            rw [hk2, hX, List.length_drop] at hm2
            have hlt : 1 ≤ (m.get i).myAtts.length := by omega
            rw [← hX] at hm2
            omega
          · rw [hm3, hk2, hX, List.nil_append]

theorem sourceIdx_congr (m acc : Model) (i : Nat)
    (hm : ∀ q, maskMyE (acc.get q) = maskMyE (m.get q)) :
    sourceIdx acc i = sourceIdx m i := by
  have h1 : (acc.get i).isInstance = (m.get i).isInstance := by
    have hx := congrArg Production.isInstance (hm i)
    simpa [maskMyE] using hx
  have h2 : (acc.get i).beInstance = (m.get i).beInstance := by
    have hx := congrArg Production.beInstance (hm i)
    simpa [maskMyE] using hx
  unfold sourceIdx
  rw [h1, h2]

/-- `findMyExpsOne` reads no `myExps` field, so it is invariant under
changes that only touch `myExps`. -/
theorem findMyExpsOne_congr (m acc : Model) (i : Nat)
    (hm : ∀ q, maskMyE (acc.get q) = maskMyE (m.get q)) :
    findMyExpsOne acc i = findMyExpsOne m i := by
  have hmy : ∀ q, (acc.get q).myAtts = (m.get q).myAtts := fun q => by
    have hx := congrArg Production.myAtts (hm q)
    simpa [maskMyE] using hx
  have hdefs : ∀ q, (acc.get q).defs = (m.get q).defs := fun q => by
    have hx := congrArg Production.defs (hm q)
    simpa [maskMyE] using hx
  have hattN : ∀ q, (acc.get q).attNames = (m.get q).attNames := fun q => by
    have hx := congrArg Production.attNames (hm q)
    simpa [maskMyE] using hx
  have hlhs : ∀ q, (acc.get q).lhs = (m.get q).lhs := fun q => by
    have hx := congrArg Production.lhs (hm q)
    simpa [maskMyE] using hx
  have hsrc := sourceIdx_congr m acc i hm
  unfold findMyExpsOne
  dsimp only
  rw [hmy i, hsrc, hdefs (sourceIdx m i), hattN (sourceIdx m i), hlhs i]

/-- Invariant of the fold of `findMyExps`: only `myExps` fields are written;
each processed production with nonempty `myAtts` has gained exactly its
aligned window of source expressions, every other production is untouched. -/
theorem findMyExps_inv (m : Model) :
    ∀ (t : Nat), t ≤ m.size → ∀ acc,
      (List.range t).foldlM
        (fun (acc : Model) (i : Nat) =>
          (if (acc.get i).myAtts = [] then .ok acc
           else
             match findMyExpsOne acc i with
             | .error e => .error e
             | .ok exps =>
               .ok (acc.modifyP i (fun p => { p with myExps := p.myExps ++ exps })) :
            Except ExpErr Model))
        m = .ok acc →
      acc.size = m.size ∧ (∀ q, maskMyE (acc.get q) = maskMyE (m.get q)) ∧
      (∀ i, (i < t ∧ (m.get i).myAtts ≠ []) → ∃ k,
        (((m.get (sourceIdx m i)).attNames).drop k).take (m.get i).myAtts.length =
          (m.get i).myAtts ∧
        k + (m.get i).myAtts.length ≤
          (((m.get (sourceIdx m i)).defs.headD ⟨[]⟩).expressions.filter isAttExp).length ∧
        (acc.get i).myExps = (m.get i).myExps ++
          (((((m.get (sourceIdx m i)).defs.headD ⟨[]⟩).expressions.filter
            isAttExp).drop k).take (m.get i).myAtts.length)) ∧
      (∀ i, ¬ (i < t ∧ (m.get i).myAtts ≠ []) → (acc.get i).myExps = (m.get i).myExps) := by
  intro t
  induction t with
  | zero =>
    intro _ acc h
    simp only [List.range_zero, List.foldlM_nil] at h
    cases h
    exact ⟨rfl, fun q => rfl, fun i hc => absurd hc.1 (Nat.not_lt_zero i), fun i _ => rfl⟩
  | succ t iht =>
    intro ht acc h
    rw [List.range_succ] at h
    obtain ⟨mid, h1, h2⟩ := exceptFoldlM_split _ _ _ _ _ h
    have hstep := exceptFoldlM_single _ _ _ _ h2
    obtain ⟨ihsz, ihmask, ihwin, ihkeep⟩ := iht (Nat.le_of_succ_le ht) mid h1
    have hmyt : (mid.get t).myAtts = (m.get t).myAtts := by
      have hx := congrArg Production.myAtts (ihmask t)
      simpa [maskMyE] using hx
    try dsimp only at hstep
    by_cases hmye : (mid.get t).myAtts = []
    · rw [if_pos hmye] at hstep
      cases hstep
      refine ⟨ihsz, ihmask, fun i hc => ?_, fun i hc => ?_⟩
      · by_cases hit : i = t
        · subst hit
          exact absurd (by rw [← hmyt]; exact hmye) hc.2
        · exact ihwin i ⟨by omega, hc.2⟩
      · exact ihkeep i (fun hc2 => hc ⟨by omega, hc2.2⟩)
    · rw [if_neg hmye] at hstep
      split at hstep
      · cases hstep
      · rename_i exps hexps
        cases hstep
        have htm : t < m.size := ht
        have htmid : t < mid.size := by rw [ihsz]; exact htm
        have hconv : findMyExpsOne m t = .ok exps := by
          rw [← findMyExpsOne_congr m mid t ihmask]
          exact hexps
        have hnem : (m.get t).myAtts ≠ [] := by rw [← hmyt]; exact hmye
        obtain ⟨k, hk1, hk2, hk3⟩ := findMyExpsOne_spec m t exps hnem hconv
        refine ⟨?_, ?_, fun i hc => ?_, fun i hc => ?_⟩
        · rw [Model.size_modifyP, ihsz]
        · intro q
          rw [frame_modifyP maskMyE (fun p => { p with myExps := p.myExps ++ exps })
            (fun p => rfl) mid t q, ihmask q]
        · by_cases hit : i = t
          · subst hit
            refine ⟨k, hk1, hk2, ?_⟩
            rw [Model.get_modifyP_eq mid i _ htmid]
            have hold : (mid.get i).myExps = (m.get i).myExps :=
              ihkeep i (fun hc2 => absurd hc2.1 (Nat.lt_irrefl i))
            rw [← hk3]
            show (mid.get i).myExps ++ exps = (m.get i).myExps ++ exps
            rw [hold]
          · obtain ⟨k2, ha, hb, hcw⟩ := ihwin i ⟨by omega, hc.2⟩
            refine ⟨k2, ha, hb, ?_⟩
            rw [Model.get_modifyP_ne mid t i _ hit]
            exact hcw
        · by_cases hit : i = t
          · subst hit
            exact absurd ⟨Nat.lt_succ_self i, hnem⟩ hc
          · rw [Model.get_modifyP_ne mid t i _ hit]
            exact ihkeep i (fun hc2 => hc ⟨by omega, hc2.2⟩)

/-- C2 (amended): besides the three diagnostics, the alignment pass can also
crash on a NULL cursor advance; when `findMyExps` succeeds it writes only
`myExps`, and every production with nonempty own-attribute-names gains
exactly `length(myAtts)` expressions, drawn in order from the contiguous
window of the Terminal/NonTerminal expressions of the source production's
first definition at the offset where the source attNames window equals its
own-attribute-names. -/
theorem C2_own_exp_alignment (m macc : Model) (h : findMyExps m = .ok macc)
    (i : Nat) (hi : i < m.size ∧ (m.get i).myAtts ≠ []) :
    ∃ k,
      (((m.get (sourceIdx m i)).attNames).drop k).take (m.get i).myAtts.length =
        (m.get i).myAtts ∧
      k + (m.get i).myAtts.length ≤
        (((m.get (sourceIdx m i)).defs.headD ⟨[]⟩).expressions.filter isAttExp).length ∧
      (macc.get i).myExps = (m.get i).myExps ++
        (((((m.get (sourceIdx m i)).defs.headD ⟨[]⟩).expressions.filter
          isAttExp).drop k).take (m.get i).myAtts.length) := by
  unfold findMyExps at h
  obtain ⟨-, -, hwin, -⟩ := findMyExps_inv m m.size le_rfl macc h
  exact hwin i hi

/-- C2 witness: on the witness model the own attribute `b` aligns at offset
1 of the source attNames `[a, b]`, and the pass appends the single matching
expression window. -/
theorem C2_own_exp_alignment_witness :
    ∃ k,
      (((witMyExpsModel.get (sourceIdx witMyExpsModel 0)).attNames).drop k).take
        (witMyExpsModel.get 0).myAtts.length = (witMyExpsModel.get 0).myAtts ∧
      k + (witMyExpsModel.get 0).myAtts.length ≤
        (((witMyExpsModel.get (sourceIdx witMyExpsModel 0)).defs.headD
          ⟨[]⟩).expressions.filter isAttExp).length ∧
      (witMyExpsRes.get 0).myExps = (witMyExpsModel.get 0).myExps ++
        (((((witMyExpsModel.get (sourceIdx witMyExpsModel 0)).defs.headD
          ⟨[]⟩).expressions.filter isAttExp).drop k).take
          (witMyExpsModel.get 0).myAtts.length) :=
  C2_own_exp_alignment witMyExpsModel witMyExpsRes (by decide) 0 ⟨by decide, by decide⟩


/-! ## C10: supertype members are never optional parents -/

/-- The shape extracted by `optChild`: two definitions, each a single
expression, the first resolved and the second a ONECHAR `$`. -/
theorem optChild_shape (m : Model) (i c : Nat) (h : optChild m i = some c) :
    ∃ d1 d2 e1 e2, (m.get i).defs = [d1, d2] ∧ d1.expressions = [e1] ∧
      d2.expressions = [e2] ∧ e1.prodValue = some c ∧
      e2.theType = ONECHAR ∧ e2.itemName = "$" := by
  unfold optChild at h
  split at h
  · rename_i d1 d2 hdefs
    split at h
    · rename_i e1 e2 he1 he2
      split at h
      · rename_i c2 hpv
        split at h
        · rename_i hone
          cases h
          exact ⟨d1, d2, e1, e2, hdefs, he1, he2, hpv, hone.1, hone.2⟩
        · cases h
      · cases h
    · cases h
  · cases h

/-- A production whose every definition is a single NONTERMINAL cannot have
the optional-parent shape: NONTERMINAL is not ONECHAR. -/
theorem superShape_optChild_none (m : Model) (s : Nat)
    (h : defsSuperShape ((m.get s).defs) = true) : optChild m s = none := by
  cases hoc : optChild m s with
  | none => rfl
  | some c =>
    exfalso
    obtain ⟨d1, d2, e1, e2, hdefs, he1, he2, hpv, hty, hnm⟩ := optChild_shape m s c hoc
    unfold defsSuperShape at h
    rw [List.all_eq_true] at h
    have h2 := h d2 (by rw [hdefs]; exact List.mem_cons_of_mem d1 (List.mem_cons_self d2 []))
    rw [he2] at h2
    have hty2 : e2.theType = NONTERMINAL := by
      have h3 : decide (e2.theType = NONTERMINAL) = true := h2
      exact of_decide_eq_true h3
    rw [hty] at hty2
    exact absurd hty2 (by decide)

/-- The writes of one `findSupertypes` iteration touch only `isSupertype`,
`isInstance` and `subtypeOf`. -/
theorem findSupertypesStep_frameF {β : Type} (F : Production → β)
    (h1 : ∀ p, F { p with isSupertype := true } = F p)
    (h2 : ∀ p, F { p with isInstance := true } = F p)
    (h3 : ∀ p x, F { p with subtypeOf := p.subtypeOf ++ [x] } = F p) :
    ∀ (mm : Model) (i j : Nat), F ((findSupertypesStep mm i).get j) = F (mm.get j) := by
  intro mm i j
  unfold findSupertypesStep
  dsimp only
  split
  · split
    · refine (foldl_frame F _ ?_ _ _ j).trans (frame_modifyP F _ h1 mm i j)
      intro mm2 d j2
      try dsimp only
      split
      all_goals try rfl
      split
      all_goals try rfl
      exact frame_modifyP F _ h2 mm2 _ j2
    · refine (foldl_frame F _ ?_ _ _ j).trans (frame_modifyP F _ h1 mm i j)
      intro mm2 d j2
      try dsimp only
      split
      all_goals try rfl
      split
      all_goals try rfl
      exact frame_modifyP F _ (fun p => h3 p i) mm2 _ j2
  · rfl

/-- `findSupertypes` preserves `defs`, `ancestors` and `isOptional`. -/
theorem findSupertypes_frame3 (m : Model) (j : Nat) :
    ((findSupertypes m).get j).defs = (m.get j).defs ∧
    ((findSupertypes m).get j).ancestors = (m.get j).ancestors ∧
    ((findSupertypes m).get j).isOptional = (m.get j).isOptional := by
  unfold findSupertypes
  refine ⟨?_, ?_, ?_⟩
  · exact foldl_frame Production.defs findSupertypesStep
      (findSupertypesStep_frameF Production.defs (fun p => rfl) (fun p => rfl)
        (fun p x => rfl)) (List.range m.size) m j
  · exact foldl_frame Production.ancestors findSupertypesStep
      (findSupertypesStep_frameF Production.ancestors (fun p => rfl) (fun p => rfl)
        (fun p x => rfl)) (List.range m.size) m j
  · exact foldl_frame (fun p => p.isOptional) findSupertypesStep
      (findSupertypesStep_frameF (fun p => p.isOptional) (fun p => rfl) (fun p => rfl)
        (fun p x => rfl)) (List.range m.size) m j

/-- Pointwise weakening: the full supertype-shape check of `findSupertypes`
implies the model-independent single-NONTERMINAL shape. -/
theorem defsSuperShape_of_all (mm : Model) (l : List Definition)
    (h : l.all (defIsSuperShape mm) = true) : defsSuperShape l = true := by
  unfold defsSuperShape
  rw [List.all_eq_true] at h ⊢
  intro d hd
  have h2 := h d hd
  unfold defIsSuperShape at h2
  split at h2
  · rename_i e he
    by_cases hty : e.theType = NONTERMINAL
    · exact decide_eq_true hty
    · rw [if_neg hty] at h2
      cases h2
  · cases h2

/-- Every member of any `subtypeOf` list after `findSupertypes` on a model
with clean `subtypeOf` lists passed the supertype shape check, so all its
definitions are single NONTERMINAL expressions (stated against the defs of
the input model, which the pass does not change). -/
theorem findSupertypes_subtypeOf_shape (m0 : Model)
    (hcl : ∀ q, (m0.get q).subtypeOf = []) :
    ∀ q x, x ∈ ((findSupertypes m0).get q).subtypeOf →
      defsSuperShape ((m0.get x).defs) = true := by
  unfold findSupertypes
  suffices hmain : (∀ q, ((List.foldl findSupertypesStep m0 (List.range m0.size)).get q).defs =
        (m0.get q).defs) ∧
      (∀ q x, x ∈ ((List.foldl findSupertypesStep m0 (List.range m0.size)).get q).subtypeOf →
        defsSuperShape ((m0.get x).defs) = true) by
    exact hmain.2
  refine foldl_preserve
    (fun acc => (∀ q, (acc.get q).defs = (m0.get q).defs) ∧
      (∀ q x, x ∈ (acc.get q).subtypeOf → defsSuperShape ((m0.get x).defs) = true))
    ?_ (List.range m0.size) m0
    ⟨fun q => rfl, fun q x hx => by rw [hcl q] at hx; cases hx⟩
  intro mm i hP
  obtain ⟨hdefs, hmem⟩ := hP
  unfold findSupertypesStep
  dsimp only
  split
  · rename_i hshape
    have hQi : defsSuperShape ((m0.get i).defs) = true := by
      rw [← hdefs i]
      exact defsSuperShape_of_all mm ((mm.get i).defs) hshape
    have hstart : (∀ q, ((mm.modifyP i (fun q => { q with isSupertype := true })).get q).defs =
          (m0.get q).defs) ∧
        (∀ q x, x ∈ ((mm.modifyP i (fun q => { q with isSupertype := true })).get q).subtypeOf →
          defsSuperShape ((m0.get x).defs) = true) := by
      constructor
      · intro q
        rw [frame_modifyP Production.defs (fun q => { q with isSupertype := true })
          (fun p => rfl) mm i q]
        exact hdefs q
      · intro q x hx
        rw [frame_modifyP Production.subtypeOf (fun q => { q with isSupertype := true })
          (fun p => rfl) mm i q] at hx
        exact hmem q x hx
    split
    · refine foldl_preserve
        (fun acc => (∀ q, (acc.get q).defs = (m0.get q).defs) ∧
          (∀ q x, x ∈ (acc.get q).subtypeOf → defsSuperShape ((m0.get x).defs) = true))
        ?_ _ _ hstart
      intro mm2 d hP2
      obtain ⟨hdefs2, hmem2⟩ := hP2
      try dsimp only
      split
      all_goals try exact ⟨hdefs2, hmem2⟩
      split
      all_goals try exact ⟨hdefs2, hmem2⟩
      constructor
      · intro q
        rw [frame_modifyP Production.defs (fun q => { q with isInstance := true })
          (fun p => rfl) mm2 _ q]
        exact hdefs2 q
      · intro q x hx
        rw [frame_modifyP Production.subtypeOf (fun q => { q with isInstance := true })
          (fun p => rfl) mm2 _ q] at hx
        exact hmem2 q x hx
    · refine foldl_preserve
        (fun acc => (∀ q, (acc.get q).defs = (m0.get q).defs) ∧
          (∀ q x, x ∈ (acc.get q).subtypeOf → defsSuperShape ((m0.get x).defs) = true))
        ?_ _ _ hstart
      intro mm2 d hP2
      obtain ⟨hdefs2, hmem2⟩ := hP2
      try dsimp only
      split
      all_goals try exact ⟨hdefs2, hmem2⟩
      split
      all_goals try exact ⟨hdefs2, hmem2⟩
      rename_i s hpv
      constructor
      · intro q
        rw [frame_modifyP Production.defs (fun q => { q with subtypeOf := q.subtypeOf ++ [i] })
          (fun p => rfl) mm2 s q]
        exact hdefs2 q
      · intro q x hx
        rw [Model.get_modifyP] at hx
        by_cases hqs : q = s ∧ s < mm2.size
        · rw [if_pos hqs] at hx
          dsimp only at hx
          rcases List.mem_append.mp hx with hx2 | hx2
          · exact hmem2 s x hx2
          · rw [List.mem_singleton] at hx2
            subst hx2
            exact hQi
        · rw [if_neg hqs] at hx
          exact hmem2 q x hx
  · exact ⟨hdefs, hmem⟩

/-- Every entry that `findAncestors` adds comes from some `subtypeOf` list. -/
theorem findAncestors_mem (m : Model) (Q : Nat → Prop)
    (hQ : ∀ q s, s ∈ (m.get q).subtypeOf → Q s) :
    ∀ (fuel : Nat) (i : Nat) (acc : List Nat), (∀ x, x ∈ acc → Q x) →
      ∀ x, x ∈ findAncestors m fuel i acc → Q x
  | 0, i, acc => fun hacc x hx => hacc x hx
  | fuel + 1, i, acc => by
    intro hacc x hx
    unfold findAncestors at hx
    have hgen : ∀ (l : List Nat), (∀ s, s ∈ l → Q s) → ∀ (acc2 : List Nat),
        (∀ y, y ∈ acc2 → Q y) → ∀ y,
          y ∈ l.foldl (fun acc2 s =>
            if s ∉ acc2 ∧ (m.get s).isOptional ≠ 1 ∧ (m.get s).isOptional ≠ 2 then
              findAncestors m fuel s (acc2 ++ [s])
            else acc2) acc2 → Q y := by
      intro l
      induction l with
      | nil => intro hl acc2 hacc2 y hy; exact hacc2 y hy
      | cons s rest ihl =>
        intro hl acc2 hacc2 y hy
        rw [List.foldl_cons] at hy
        refine ihl (fun s2 hs2 => hl s2 (List.mem_cons_of_mem s hs2)) _ ?_ y hy
        intro y2 hy2
        by_cases hcond : s ∉ acc2 ∧ (m.get s).isOptional ≠ 1 ∧ (m.get s).isOptional ≠ 2
        · rw [if_pos hcond] at hy2
          refine findAncestors_mem m Q hQ fuel s (acc2 ++ [s]) ?_ y2 hy2
          intro z hz
          rcases List.mem_append.mp hz with h | h
          · exact hacc2 z h
          · rw [List.mem_singleton] at h
            rw [h]
            exact hl s (List.mem_cons_self s rest)
        · rw [if_neg hcond] at hy2
          exact hacc2 y2 hy2
    exact hgen (m.get i).subtypeOf (fun s hs => hQ i s hs) acc hacc x hx

/-- `findAllAncestors` writes only `ancestors`, and on a model with clean
ancestor lists every collected ancestor satisfies any property enjoyed by
all `subtypeOf` members. -/
theorem findAllAncestors_props (m1 : Model) (Q : Nat → Prop)
    (hQ : ∀ q s, s ∈ (m1.get q).subtypeOf → Q s)
    (hclean : ∀ q, (m1.get q).ancestors = []) :
    (∀ q, maskAnc ((findAllAncestors m1).get q) = maskAnc (m1.get q)) ∧
    (∀ q x, x ∈ ((findAllAncestors m1).get q).ancestors → Q x) := by
  unfold findAllAncestors
  refine foldl_preserve
    (fun acc => (∀ q, maskAnc (acc.get q) = maskAnc (m1.get q)) ∧
      (∀ q x, x ∈ (acc.get q).ancestors → Q x))
    ?_ (List.range m1.size) m1
    ⟨fun q => rfl, fun q x hx => by rw [hclean q] at hx; cases hx⟩
  intro mm i hP
  obtain ⟨hmask, hmem⟩ := hP
  have hsubEq : ∀ q, (mm.get q).subtypeOf = (m1.get q).subtypeOf := by
    intro q
    have hx := congrArg Production.subtypeOf (hmask q)
    simpa [maskAnc] using hx
  constructor
  · intro q
    rw [frame_modifyP maskAnc
      (fun p => { p with ancestors := findAncestors mm (ancFuel mm) i p.ancestors })
      (fun p => rfl) mm i q]
    exact hmask q
  · intro q x hx
    rw [Model.get_modifyP] at hx
    by_cases hqi : q = i ∧ i < mm.size
    · rw [if_pos hqi] at hx
      dsimp only at hx
      refine findAncestors_mem mm Q ?_ (ancFuel mm) i ((mm.get i).ancestors) ?_ x hx
      · intro q2 s hs
        rw [hsubEq q2] at hs
        exact hQ q2 s hs
      · exact hmem i
    · rw [if_neg hqi] at hx
      exact hmem q x hx

/-- `findBeInstance` writes only `beInstance`. -/
theorem findBeInstance_mask (m : Model) (j : Nat) :
    maskBeI ((findBeInstance m).get j) = maskBeI (m.get j) := by
  unfold findBeInstance
  refine foldl_frame maskBeI _ ?_ (List.range m.size) m j
  intro mm i j2
  try dsimp only
  split
  · refine foldl_frame maskBeI _ ?_ ((mm.get i).ancestors) mm j2
    intro mm2 a j3
    try dsimp only
    split
    · exact frame_modifyP maskBeI (fun p => { p with beInstance := some i })
        (fun p => rfl) mm2 a j3
    · rfl
  · rfl

/-- Everything one `optInstall` does: it writes only optional fields, it
touches only the parent and the child, and the child's role becomes 3 (or
keeps its old value when the child index is out of range). -/
theorem optInstall_effect (mid : Model) (t c : Nat) (acc : Model)
    (h : optInstall mid t c = .ok acc) :
    acc.size = mid.size ∧
    (∀ j, maskOpt (acc.get j) = maskOpt (mid.get j)) ∧
    (∀ s, s ≠ c → s ≠ t → acc.get s = mid.get s) ∧
    (c ≠ t → (acc.get c).isOptional = 3 ∨ (acc.get c).isOptional = (mid.get c).isOptional) := by
  have key : ∀ (g : Production → Production),
      acc = ((mid.modifyP c (fun p => { p with isOptional := 3, optProd := some t })).modifyP t
        (fun p => { p with optProd := some c })).modifyP t g →
      (∀ p, maskOpt (g p) = maskOpt p) →
      acc.size = mid.size ∧
      (∀ j, maskOpt (acc.get j) = maskOpt (mid.get j)) ∧
      (∀ s, s ≠ c → s ≠ t → acc.get s = mid.get s) ∧
      (c ≠ t → (acc.get c).isOptional = 3 ∨ (acc.get c).isOptional = (mid.get c).isOptional) := by
    intro g hacc hg
    subst hacc
    refine ⟨?_, ?_, ?_, ?_⟩
    · rw [Model.size_modifyP, Model.size_modifyP, Model.size_modifyP]
    · intro j
      rw [frame_modifyP maskOpt g hg _ t j,
        frame_modifyP maskOpt (fun p => { p with optProd := some c }) (fun p => rfl) _ t j,
        frame_modifyP maskOpt (fun p => { p with isOptional := 3, optProd := some t })
          (fun p => rfl) mid c j]
    · intro s hsc hst
      rw [Model.get_modifyP_ne _ t s _ hst, Model.get_modifyP_ne _ t s _ hst,
        Model.get_modifyP_ne _ c s _ hsc]
    · intro hct
      rw [Model.get_modifyP_ne _ t c _ hct, Model.get_modifyP_ne _ t c _ hct,
        Model.get_modifyP]
      by_cases hcs : c < mid.size
      · rw [if_pos ⟨rfl, hcs⟩]
        exact Or.inl rfl
      · rw [if_neg (fun hh => hcs hh.2)]
        exact Or.inr rfl
  unfold optInstall at h
  dsimp only at h
  split at h
  · cases h
    exact key _ rfl (fun p => rfl)
  · split at h
    · obtain ⟨nm, hacc⟩ := findTransferName_ok _ t c acc h
      rw [Model.modifyP_modifyP] at hacc
      exact key _ hacc (fun p => rfl)
    · cases h
      exact key _ rfl (fun p => rfl)

/-- On success `findOptProds` writes only optional fields, and a production
that does not itself have the optional-parent shape either keeps its
optional role or becomes an optional child (role 3) — it never receives a
parent role (1 or 2). -/
theorem findOptProds_nonparent (m : Model) :
    ∀ t, t ≤ m.size → ∀ acc,
      (List.range t).foldlM (fun a i => findOptProdsStep a i) m = .ok acc →
      acc.size = m.size ∧
      (∀ j, maskOpt (acc.get j) = maskOpt (m.get j)) ∧
      (∀ s, optChild m s = none →
        (acc.get s).isOptional = (m.get s).isOptional ∨ (acc.get s).isOptional = 3) := by
  intro t
  induction t with
  | zero =>
    intro _ acc h
    simp only [List.range_zero, List.foldlM_nil] at h
    cases h
    exact ⟨rfl, fun j => rfl, fun s _ => Or.inl rfl⟩
  | succ t iht =>
    intro ht acc h
    rw [List.range_succ] at h
    obtain ⟨mid, h1, h2⟩ := exceptFoldlM_split _ _ _ _ _ h
    have hstep := exceptFoldlM_single _ _ _ _ h2
    obtain ⟨ihsz, ihmask, ihval⟩ := iht (by omega) mid h1
    have hdefsEq : ∀ j, (mid.get j).defs = (m.get j).defs := by
      intro j
      have hx := congrArg Production.defs (ihmask j)
      simpa [maskOpt] using hx
    have hocEq : ∀ j, optChild mid j = optChild m j := fun j =>
      optChild_congr mid m j (hdefsEq j)
    rw [findOptProdsStep_char] at hstep
    cases hoc : optChild m t with
    | none =>
      rw [hocEq t, hoc] at hstep
      cases hstep
      exact ⟨ihsz, ihmask, ihval⟩
    | some c =>
      rw [hocEq t, hoc] at hstep
      obtain ⟨hsz2, hmask2, huntouched, hchild⟩ := optInstall_effect mid t c acc hstep
      refine ⟨hsz2.trans ihsz, fun j => (hmask2 j).trans (ihmask j), ?_⟩
      intro s hs
      by_cases hst : s = t
      · subst hst
        rw [hoc] at hs
        cases hs
      · by_cases hsc : s = c
        · subst hsc
          rcases hchild hst with h3 | hkeep
          · exact Or.inr h3
          · rw [hkeep]
            exact ihval s hs
        · rw [huntouched s hsc hst]
          exact ihval s hs

/-- C10 (confirmed): starting from a model with clean `subtypeOf`,
`ancestors` and optional roles, after the supertype, ancestor, be-instance
and optional passes no member of any `subtypeOf` or `ancestors` list is an
optional parent (isOptional 1 or 2): every such member passed the supertype
shape check (each definition a single NONTERMINAL), which is incompatible
with the optional-parent shape (second definition a single ONECHAR `$`), so
`findOptProds` can never give it a parent role. -/
theorem C10_no_optional_parent_supertypes (m0 m4 : Model)
    (hclean : ∀ q, q < m0.size → (m0.get q).subtypeOf = [] ∧ (m0.get q).ancestors = [] ∧
      (m0.get q).isOptional = 0)
    (h : findOptProds (findBeInstance (findAllAncestors (findSupertypes m0))) = .ok m4)
    (i s : Nat) (hmem : s ∈ (m4.get i).subtypeOf ∨ s ∈ (m4.get i).ancestors) :
    ¬ ((m4.get s).isOptional = 1 ∨ (m4.get s).isOptional = 2) := by
  have hsub0 : ∀ q, (m0.get q).subtypeOf = [] := by
    intro q
    by_cases hq : q < m0.size
    · exact (hclean q hq).1
    · rw [Model.get_of_ge m0 q (le_of_not_lt hq)]; rfl
  have hanc0 : ∀ q, (m0.get q).ancestors = [] := by
    intro q
    by_cases hq : q < m0.size
    · exact (hclean q hq).2.1
    · rw [Model.get_of_ge m0 q (le_of_not_lt hq)]; rfl
  have hopt0 : ∀ q, (m0.get q).isOptional = 0 := by
    intro q
    by_cases hq : q < m0.size
    · exact (hclean q hq).2.2
    · rw [Model.get_of_ge m0 q (le_of_not_lt hq)]; rfl
  have hQ1 := findSupertypes_subtypeOf_shape m0 hsub0
  have hf1 := findSupertypes_frame3 m0
  have hA := findAllAncestors_props (findSupertypes m0)
    (fun x => defsSuperShape ((m0.get x).defs) = true) hQ1
    (fun q => ((hf1 q).2.1).trans (hanc0 q))
  obtain ⟨hAmask, hAmem⟩ := hA
  have hBmask := findBeInstance_mask (findAllAncestors (findSupertypes m0))
  unfold findOptProds at h
  obtain ⟨-, hOmask, hOval⟩ := findOptProds_nonparent
    (findBeInstance (findAllAncestors (findSupertypes m0))) _ le_rfl m4 h
  -- field transports through the masks
  have hsub43 : ∀ q, (m4.get q).subtypeOf =
      ((findBeInstance (findAllAncestors (findSupertypes m0))).get q).subtypeOf := by
    intro q
    have hx := congrArg Production.subtypeOf (hOmask q)
    simpa [maskOpt] using hx
  have hsub32 : ∀ q, ((findBeInstance (findAllAncestors (findSupertypes m0))).get q).subtypeOf =
      ((findAllAncestors (findSupertypes m0)).get q).subtypeOf := by
    intro q
    have hx := congrArg Production.subtypeOf (hBmask q)
    simpa [maskBeI] using hx
  have hsub21 : ∀ q, ((findAllAncestors (findSupertypes m0)).get q).subtypeOf =
      ((findSupertypes m0).get q).subtypeOf := by
    intro q
    have hx := congrArg Production.subtypeOf (hAmask q)
    simpa [maskAnc] using hx
  have hanc43 : ∀ q, (m4.get q).ancestors =
      ((findBeInstance (findAllAncestors (findSupertypes m0))).get q).ancestors := by
    intro q
    have hx := congrArg Production.ancestors (hOmask q)
    simpa [maskOpt] using hx
  have hanc32 : ∀ q, ((findBeInstance (findAllAncestors (findSupertypes m0))).get q).ancestors =
      ((findAllAncestors (findSupertypes m0)).get q).ancestors := by
    intro q
    have hx := congrArg Production.ancestors (hBmask q)
    simpa [maskBeI] using hx
  have hdefs32 : ∀ q, ((findBeInstance (findAllAncestors (findSupertypes m0))).get q).defs =
      ((findAllAncestors (findSupertypes m0)).get q).defs := by
    intro q
    have hx := congrArg Production.defs (hBmask q)
    simpa [maskBeI] using hx
  have hdefs21 : ∀ q, ((findAllAncestors (findSupertypes m0)).get q).defs =
      ((findSupertypes m0).get q).defs := by
    intro q
    have hx := congrArg Production.defs (hAmask q)
    simpa [maskAnc] using hx
  have hopt32 : ∀ q, ((findBeInstance (findAllAncestors (findSupertypes m0))).get q).isOptional =
      ((findAllAncestors (findSupertypes m0)).get q).isOptional := by
    intro q
    have hx := congrArg Production.isOptional (hBmask q)
    simpa [maskBeI] using hx
  have hopt21 : ∀ q, ((findAllAncestors (findSupertypes m0)).get q).isOptional =
      ((findSupertypes m0).get q).isOptional := by
    intro q
    have hx := congrArg Production.isOptional (hAmask q)
    simpa [maskAnc] using hx
  -- the member s has the supertype shape
  have hQs : defsSuperShape ((m0.get s).defs) = true := by
    rcases hmem with hmem | hmem
    · rw [hsub43 i, hsub32 i, hsub21 i] at hmem
      exact hQ1 i s hmem
    · rw [hanc43 i, hanc32 i] at hmem
      exact hAmem i s hmem
  -- hence s never gets a parent role
  have hocs : optChild (findBeInstance (findAllAncestors (findSupertypes m0))) s = none := by
    refine superShape_optChild_none _ s ?_
    rw [hdefs32 s, hdefs21 s, (hf1 s).1]
    exact hQs
  have hval := hOval s hocs
  have hold : ((findBeInstance (findAllAncestors (findSupertypes m0))).get s).isOptional = 0 := by
    rw [hopt32 s, hopt21 s, (hf1 s).2.2]
    exact hopt0 s
  intro hcon
  rcases hval with hval | hval
  · rw [hold] at hval
    rcases hcon with hcon | hcon <;> rw [hcon] at hval <;> cases hval
  · rcases hcon with hcon | hcon <;> rw [hcon] at hval <;> cases hval

/-- C10 witness: in the analyzed model of `s = a | b ; a = A ; b = B ;`, the
supertype `s` is a member of `a`'s subtypeOf list and is not an optional
parent. -/
theorem C10_no_optional_parent_supertypes_witness :
    ¬ ((witC10Res.get 0).isOptional = 1 ∨ (witC10Res.get 0).isOptional = 2) :=
  C10_no_optional_parent_supertypes witEmitBase witC10Res (by decide) (by decide) 1 0
    (Or.inl (by decide))


/-! ## C4: the class-emission loop -/

theorem listTake_append_le {α : Type} :
    ∀ (l1 l2 : List α) (n : Nat), n ≤ l1.length → (l1 ++ l2).take n = l1.take n
  | _, _, 0, _ => by simp
  | [], l2, n + 1, h => absurd h (by simp)
  | a :: l1, l2, n + 1, h => by
    simp only [List.cons_append, List.take_succ_cons]
    rw [listTake_append_le l1 l2 n (by simpa using Nat.le_of_succ_le_succ h)]

theorem listGetD_append_lt {α : Type} :
    ∀ (l1 l2 : List α) (n : Nat) (d : α), n < l1.length → (l1 ++ l2).getD n d = l1.getD n d
  | [], _, n, d, h => absurd h (by simp)
  | a :: l1, l2, 0, d, _ => rfl
  | a :: l1, l2, n + 1, d, h =>
    listGetD_append_lt l1 l2 n d (by simpa using Nat.lt_of_succ_lt_succ h)

theorem listGetD_append_len {α : Type} :
    ∀ (l1 l2 : List α) (d : α), (l1 ++ l2).getD l1.length d = l2.getD 0 d
  | [], _, _ => rfl
  | a :: l1, l2, d => listGetD_append_len l1 l2 d

theorem foldlM_total {σ α ε : Type} (P : σ → Prop) (f : σ → α → Except ε σ) :
    ∀ (l : List α), (∀ st a, a ∈ l → P st → ∃ st2, f st a = .ok st2 ∧ P st2) →
      ∀ st, P st → ∃ st2, l.foldlM f st = .ok st2 ∧ P st2
  | [], _, st, hP => ⟨st, rfl, hP⟩
  | a :: l, hstep, st, hP => by
    obtain ⟨mid, hmid, hPmid⟩ := hstep st a (List.mem_cons_self a l) hP
    obtain ⟨st2, h2, hP2⟩ := foldlM_total P f l
      (fun st3 b hb hP3 => hstep st3 b (List.mem_cons_of_mem a hb) hP3) mid hPmid
    exact ⟨st2, by rw [List.foldlM_cons, hmid]; exact h2, hP2⟩

theorem emitPassStep_char_some (k : Nat) (mm : Model) (order : List Nat) (cnt : Nat)
    (idx : Nat) :
    emitPassStep (some k) (mm, order, cnt) idx =
      (if (mm.get idx).wasPrinted then .ok (mm, order, cnt)
       else if (mm.get idx).isInstance then
         (if (mm.get k).wasPrinted then .ok (emitIfReady mm order cnt idx)
          else .ok (mm, order, cnt))
       else .ok (emitIfReady mm order cnt idx)) := rfl

theorem emitPassStep_char_none (mm : Model) (order : List Nat) (cnt : Nat) (idx : Nat) :
    emitPassStep none (mm, order, cnt) idx =
      (if (mm.get idx).wasPrinted then .ok (mm, order, cnt)
       else if (mm.get idx).isInstance then .error .crash
       else .ok (emitIfReady mm order cnt idx)) := rfl

/-- Emitting a ready production extends the emission invariant: the new
index goes to the end of the order, and the checks performed by the loop are
exactly what `respectsOrder` requires at the new position. -/
theorem emitInv_extend (m : Model) (toPrint : List Nat) (mm : Model) (order : List Nat)
    (idx : Nat) (hI : EmitInv m toPrint mm order) (hidx : idx ∈ toPrint)
    (hltx : idx < m.size)
    (hnp : (mm.get idx).wasPrinted = false)
    (hall : (mm.get idx).subtypeOf.all (fun s => (mm.get s).wasPrinted) = true)
    (hinstOK : (m.get idx).isInstance = true →
      ∀ j, findNatx m "instance" = some j → j ∈ order) :
    EmitInv m toPrint (mm.modifyP idx (fun p => { p with wasPrinted := true }))
      (order ++ [idx]) := by
  obtain ⟨hsz, hmask, hprn, hnd, hsubm, hord⟩ := hI
  have hltm : idx < mm.size := by rw [hsz]; exact hltx
  have hnotmem : idx ∉ order := fun hmem => by
    rw [← hprn idx] at hmem
    rw [hnp] at hmem
    cases hmem
  have hsubEq : (mm.get idx).subtypeOf = (m.get idx).subtypeOf := by
    have hx := congrArg Production.subtypeOf (hmask idx)
    simpa [maskWasP] using hx
  have hinstEq : (mm.get idx).isInstance = (m.get idx).isInstance := by
    have hx := congrArg Production.isInstance (hmask idx)
    simpa [maskWasP] using hx
  refine ⟨?_, ?_, ?_, ?_, ?_, ?_⟩
  · rw [Model.size_modifyP]; exact hsz
  · intro q
    rw [frame_modifyP maskWasP (fun p => { p with wasPrinted := true })
      (fun p => rfl) mm idx q]
    exact hmask q
  · intro q
    by_cases hq : q = idx
    · subst hq
      rw [Model.get_modifyP_eq mm q _ hltm]
      constructor
      · intro _
        exact List.mem_append.mpr (Or.inr (List.mem_singleton.mpr rfl))
      · intro _
        rfl
    · rw [Model.get_modifyP_ne mm idx q _ hq]
      rw [hprn q]
      constructor
      · intro h2
        exact List.mem_append.mpr (Or.inl h2)
      · intro h2
        rcases List.mem_append.mp h2 with h3 | h3
        · exact h3
        · rw [List.mem_singleton] at h3
          exact absurd h3 hq
  · rw [List.nodup_append]
    refine ⟨hnd, List.nodup_singleton idx, ?_⟩
    intro a ha hb
    rw [List.mem_singleton] at hb
    rw [hb] at ha
    exact hnotmem ha
  · intro x hx
    rcases List.mem_append.mp hx with h3 | h3
    · exact hsubm x h3
    · rw [List.mem_singleton] at h3
      rw [h3]
      exact hidx
  · intro k hk
    rw [List.length_append, List.length_singleton] at hk
    by_cases hkl : k < order.length
    · have hgd : (order ++ [idx]).getD k 0 = order.getD k 0 :=
        listGetD_append_lt order [idx] k 0 hkl
      have htk : (order ++ [idx]).take k = order.take k :=
        listTake_append_le order [idx] k (Nat.le_of_lt hkl)
      rw [hgd, htk]
      exact hord k hkl
    · have hkeq : k = order.length := by omega
      subst hkeq
      have hgd : (order ++ [idx]).getD order.length 0 = idx :=
        listGetD_append_len order [idx] 0
      have htk : (order ++ [idx]).take order.length = order :=
        (listTake_append_le order [idx] order.length le_rfl).trans (List.take_length order)
      rw [hgd, htk]
      constructor
      · intro s2 hs2
        rw [← hsubEq] at hs2
        rw [List.all_eq_true] at hall
        have hw2 := hall s2 hs2
        rw [← hprn s2]
        exact hw2
      · intro hbi j hj
        exact hinstOK hbi j hj

/-- One scan of the emission loop: under the invariant it cannot crash, and
it returns a state that still satisfies the invariant, with the scan counter
accounting exactly for the growth of the order. -/
theorem emitPass_inv (m : Model) (toPrint : List Nat) (instIdx : Option Nat)
    (hii : instIdx = findNatx m "instance")
    (hlt : ∀ i, i ∈ toPrint → i < m.size)
    (hsane : ∀ i, i ∈ toPrint → (m.get i).isInstance = true →
      (findNatx m "instance").isSome)
    (mm0 : Model) (order0 : List Nat) (hI0 : EmitInv m toPrint mm0 order0) :
    ∃ st1, emitPass instIdx toPrint mm0 order0 = .ok st1 ∧
      EmitInv m toPrint st1.1 st1.2.1 ∧ st1.2.2 + order0.length = st1.2.1.length := by
  unfold emitPass
  refine foldlM_total
    (fun st => EmitInv m toPrint st.1 st.2.1 ∧ st.2.2 + order0.length = st.2.1.length)
    (emitPassStep instIdx) toPrint ?_ (mm0, order0, 0) ⟨hI0, by simp⟩
  intro st idx hidx hP
  obtain ⟨mm, order, cnt⟩ := st
  obtain ⟨hI, hcnt⟩ := hP
  dsimp only at hI hcnt
  have hinstEq : (mm.get idx).isInstance = (m.get idx).isInstance := by
    have hx := congrArg Production.isInstance (hI.2.1 idx)
    simpa [maskWasP] using hx
  have hready : ∀ (hnp : (mm.get idx).wasPrinted = false)
      (hOK : (m.get idx).isInstance = true →
        ∀ j, findNatx m "instance" = some j → j ∈ order),
      EmitInv m toPrint (emitIfReady mm order cnt idx).1 (emitIfReady mm order cnt idx).2.1 ∧
      (emitIfReady mm order cnt idx).2.2 + order0.length =
        (emitIfReady mm order cnt idx).2.1.length := by
    intro hnp hOK
    unfold emitIfReady
    by_cases hall : (mm.get idx).subtypeOf.all (fun s => (mm.get s).wasPrinted) = true
    · rw [if_pos hall]
      refine ⟨emitInv_extend m toPrint mm order idx hI hidx (hlt idx hidx) hnp hall hOK, ?_⟩
      simp only [List.length_append, List.length_singleton]
      omega
    · rw [if_neg hall]
      exact ⟨hI, hcnt⟩
  cases hins : instIdx with
  | none =>
    have hnobi : (mm.get idx).isInstance = false := by
      rw [hinstEq]
      by_cases hbi : (m.get idx).isInstance = true
      · have := hsane idx hidx hbi
        rw [← hii, hins] at this
        cases this
      · cases h2 : (m.get idx).isInstance
        · rfl
        · exact absurd h2 hbi
    rw [emitPassStep_char_none]
    by_cases hwp : (mm.get idx).wasPrinted
    · rw [if_pos hwp]
      exact ⟨(mm, order, cnt), rfl, hI, hcnt⟩
    · rw [if_neg hwp, hnobi]
      rw [if_neg (by simp)]
      refine ⟨emitIfReady mm order cnt idx, rfl, ?_⟩
      refine hready ?_ ?_
      · cases h2 : (mm.get idx).wasPrinted
        · rfl
        · exact absurd h2 hwp
      · intro hbi j hj
        rw [← hii, hins] at hj
        cases hj
  | some k =>
    rw [emitPassStep_char_some]
    by_cases hwp : (mm.get idx).wasPrinted
    · rw [if_pos hwp]
      exact ⟨(mm, order, cnt), rfl, hI, hcnt⟩
    · rw [if_neg hwp]
      have hnp : (mm.get idx).wasPrinted = false := by
        cases h2 : (mm.get idx).wasPrinted
        · rfl
        · exact absurd h2 hwp
      by_cases hbi : (mm.get idx).isInstance
      · rw [if_pos hbi]
        by_cases hkp : (mm.get k).wasPrinted
        · rw [if_pos hkp]
          refine ⟨emitIfReady mm order cnt idx, rfl, ?_⟩
          refine hready hnp ?_
          intro _ j hj
          rw [← hii, hins] at hj
          injection hj with hj2
          rw [← hj2]
          rw [← hI.2.2.1 k]
          exact hkp
        · rw [if_neg hkp]
          exact ⟨(mm, order, cnt), rfl, hI, hcnt⟩
      · rw [if_neg hbi]
        refine ⟨emitIfReady mm order cnt idx, rfl, ?_⟩
        refine hready hnp ?_
        intro hbi2 j hj
        rw [hinstEq] at hbi
        exact absurd hbi2 hbi

theorem emitLoop_succ_char (instIdx : Option Nat) (toPrint : List Nat) (n : Nat)
    (mm : Model) (order : List Nat) (total : Nat) (st1 : Model × List Nat × Nat)
    (h : emitPass instIdx toPrint mm order = .ok st1) :
    emitLoop instIdx toPrint (n + 1) mm order total =
      (if st1.2.2 = 0 then .ok (st1.1, st1.2.1, total)
       else emitLoop instIdx toPrint n st1.1 st1.2.1 (total + st1.2.2)) := by
  obtain ⟨m1, o1, p1⟩ := st1
  conv_lhs => rw [emitLoop]
  rw [h]

/-- The outer loop of the emission: under the invariant it never errors, and
its total equals the length of the emitted order. -/
theorem emitLoop_inv (m : Model) (toPrint : List Nat) (instIdx : Option Nat)
    (hii : instIdx = findNatx m "instance")
    (hlt : ∀ i, i ∈ toPrint → i < m.size)
    (hsane : ∀ i, i ∈ toPrint → (m.get i).isInstance = true →
      (findNatx m "instance").isSome) :
    ∀ (fuel : Nat) (mm : Model) (order : List Nat) (total : Nat),
      EmitInv m toPrint mm order → total = order.length →
      ∃ st, emitLoop instIdx toPrint fuel mm order total = .ok st ∧
        EmitInv m toPrint st.1 st.2.1 ∧ st.2.2 = st.2.1.length
  | 0, mm, order, total => by
    intro hI htot
    exact ⟨(mm, order, total), rfl, hI, htot⟩
  | fuel + 1, mm, order, total => by
    intro hI htot
    obtain ⟨st1, hok, hI1, hlen⟩ := emitPass_inv m toPrint instIdx hii hlt hsane mm order hI
    rw [emitLoop_succ_char instIdx toPrint fuel mm order total st1 hok]
    by_cases hz : st1.2.2 = 0
    · rw [if_pos hz]
      refine ⟨(st1.1, st1.2.1, total), rfl, hI1, ?_⟩
      rw [hz] at hlen
      simp only [Nat.zero_add] at hlen
      rw [htot, hlen]
    · rw [if_neg hz]
      exact emitLoop_inv m toPrint instIdx hii hlt hsane fuel st1.1 st1.2.1 (total + st1.2.2)
        hI1 (by rw [htot]; omega)

theorem printCppClassesCore_char (m : Model) (toPrint : List Nat)
    (m1 : Model) (order : List Nat) (total : Nat)
    (h : emitLoop (findNatx m "instance") toPrint toPrint.length m [] 0 =
      .ok (m1, order, total)) :
    printCppClassesCore m toPrint =
      (if total = toPrint.length then .ok (m1, order) else .error .loopFound) := by
  unfold printCppClassesCore
  dsimp only
  rw [h]

/-- C4 (confirmed): starting from an unprinted model, the emission loop of
`printCppClasses` either emits the whole emittable set — without duplicates,
drawing only from that set, and in an order in which every direct supertype
of an emitted production precedes it and the `instance` production precedes
every emitted instance — or terminates with the fatal "loop found in
productions" diagnostic. -/
theorem C4_emission_loop (m : Model) (toPrint : List Nat)
    (hw : ∀ q, q < m.size → (m.get q).wasPrinted = false)
    (hnd : toPrint.Nodup)
    (hlt : ∀ i, i ∈ toPrint → i < m.size)
    (hsane : ∀ i, i ∈ toPrint → (m.get i).isInstance = true →
      (findNatx m "instance").isSome) :
    (∃ res, printCppClassesCore m toPrint = .ok res ∧
      res.2.Nodup ∧ (∀ x, x ∈ res.2 → x ∈ toPrint) ∧
      res.2.length = toPrint.length ∧ respectsOrder m res.2) ∨
    printCppClassesCore m toPrint = .error .loopFound := by
  have hw2 : ∀ q, (m.get q).wasPrinted = false := by
    intro q
    by_cases hq : q < m.size
    · exact hw q hq
    · rw [Model.get_of_ge m q (le_of_not_lt hq)]; rfl
  have hI0 : EmitInv m toPrint m [] := by
    refine ⟨rfl, fun q => rfl, fun q => ?_, List.nodup_nil, fun x hx => absurd hx
      (List.not_mem_nil x), fun k hk => absurd hk (by simp)⟩
    rw [hw2 q]
    constructor
    · intro h2; cases h2
    · intro h2; exact absurd h2 (List.not_mem_nil q)
  obtain ⟨st, hok, hI, htot⟩ := emitLoop_inv m toPrint (findNatx m "instance") rfl hlt hsane
    toPrint.length m [] 0 hI0 rfl
  obtain ⟨m1, order, total⟩ := st
  have hchar := printCppClassesCore_char m toPrint m1 order total hok
  by_cases heq : total = toPrint.length
  · left
    refine ⟨(m1, order), ?_, hI.2.2.2.1, hI.2.2.2.2.1, ?_, hI.2.2.2.2.2⟩
    · rw [hchar, if_pos heq]
    · have h3 : total = order.length := htot
      rw [← h3, heq]
  · right
    rw [hchar, if_neg heq]

/-- C4 witness: on the analyzed model of `s = a | b ; a = A ; b = B ;` with
emittable set `[0, 1, 2]` the loop succeeds, emits all three productions
without duplicates, and respects the supertype order. -/
theorem C4_emission_loop_witness :
    (∃ res, printCppClassesCore witEmitModel [0, 1, 2] = .ok res ∧
      res.2.Nodup ∧ (∀ x, x ∈ res.2 → x ∈ [0, 1, 2]) ∧
      res.2.length = ([0, 1, 2] : List Nat).length ∧ respectsOrder witEmitModel res.2) ∨
    printCppClassesCore witEmitModel [0, 1, 2] = .error .loopFound :=
  C4_emission_loop witEmitModel [0, 1, 2] (by decide) (by decide) (by decide) (by decide)

end Sebnf2Pars
